import Mathlib

/-!
Shallow embedding of the incremental embedding-index engine of this repository
(`src/khoj/processor/text_to_jsonl.py`, class `TextEmbeddings`), together with
proofs settling the specification claims about it.

Modelling conventions:
* Python strings are Lean `String`s; `len` is `String.length` (codepoints, as in
  Python); `s.split(" ")` is implemented by `splitOnSpace` below (split at every
  single space character, keeping empty segments, exactly as Python does);
  `s[:n]` is `strTake`, `s[-n:]` is `strTakeRight` (implemented over `String.data`
  so that the kernel can evaluate them on concrete inputs).
* `uuid.uuid4()` draws a fresh identifier per loop iteration; it is modelled as
  the index of the input entry in the input list (a fresh value per entry,
  collision-free, which is what the code relies on from uuid4).
* Python `dict` iteration follows insertion order (`firstDedup` of the key list);
  Python `set` iteration order is unspecified, so sets of hashes are modelled as
  duplicate-free lists in a fixed canonical order (first occurrence).  Every
  claim proved below is insensitive to that choice of order.
* `md5` hashing (`TextEmbeddings.hash_func`) is kept abstract: definitions take
  an arbitrary `md5 : String → String` parameter.  All theorems are proved for
  every such function; concrete witnesses instantiate it with `id`.
* `sorted(..., key=lambda e: e[0])` is modelled with `List.insertionSort` on the
  first component.  The sort keys are pairwise distinct everywhere the code
  sorts, so any (stable or not) correct sort yields the same list.
* `tqdm`, `timer` and `logger` are progress/logging wrappers with no effect on
  the computed values; they are dropped.
-/

/-! ## Generic list/string helpers (models of Python primitives) -/

/-- Decidable equality on `Except`, so that concrete runs of the fallible
index updater can be checked by `decide`. -/
instance {ε α : Type} [DecidableEq ε] [DecidableEq α] : DecidableEq (Except ε α) :=
  fun a b =>
    match a, b with
    | Except.error x, Except.error y =>
      decidable_of_iff (x = y) (by simp)
    | Except.ok x, Except.ok y =>
      decidable_of_iff (x = y) (by simp)
    | Except.error _, Except.ok _ => isFalse (fun hc => Except.noConfusion hc)
    | Except.ok _, Except.error _ => isFalse (fun hc => Except.noConfusion hc)

/-- Model of Python `s.split(" ")`: split at every single space character,
keeping empty segments (e.g. `"a  b " ↦ ["a", "", "b", ""]`). -/
def splitOnSpaceAux (cur : List Char) : List Char → List String
  | [] => [String.mk cur.reverse]
  | c :: cs =>
    if c = ' ' then String.mk cur.reverse :: splitOnSpaceAux [] cs
    else splitOnSpaceAux (c :: cur) cs

/-- Model of Python `s.split(" ")`. -/
def splitOnSpace (s : String) : List String := splitOnSpaceAux [] s.data

/-- Model of Python `s[:n]` (first `n` characters). -/
def strTake (s : String) (n : Nat) : String := String.mk (s.data.take n)

/-- Model of Python `s[-n:]` (last `n` characters; the whole string when it is
shorter than `n`). -/
def strTakeRight (s : String) (n : Nat) : String :=
  String.mk (s.data.drop (s.data.length - n))

/-- Duplicate removal keeping the first occurrence of each element, i.e. the
key order of a Python `dict` built by repeated insertion, and the canonical
iteration order chosen here for Python `set`s of hashes. -/
def firstDedup {α : Type} [DecidableEq α] : List α → List α
  | [] => []
  | a :: l => a :: (firstDedup l).filter (fun x => x ≠ a)

/-- Fuel-driven worker for `listChunks` (fuel makes the recursion structural so
the kernel can evaluate it; `listChunks` supplies fuel `l.length`, which is
always enough). -/
def listChunksFuel {α : Type} : Nat → Nat → List α → List (List α)
  | 0, _, _ => []
  | _ + 1, _, [] => []
  | fuel + 1, n, x :: xs => (x :: xs.take (n - 1)) :: listChunksFuel fuel n (xs.drop (n - 1))

/-- Model of Python `[l[i : i + n] for i in range(0, len(l), n)]` (the window
slicing of `split_entries_by_max_tokens`), for `n ≥ 1`.  Python raises
`ValueError` for step `n = 0`; theorems about the chunker therefore carry a
`0 < n` hypothesis. -/
def listChunks {α : Type} (n : Nat) (l : List α) : List (List α) :=
  listChunksFuel l.length n l

/-- Sort a list of index/value pairs by the index, ascending: model of Python
`sorted(pairs, key=lambda e: e[0])`.  All call sites sort pairwise-distinct
keys, so stability is irrelevant. -/
def sortByFst {β : Type} : List (Nat × β) → List (Nat × β) :=
  List.insertionSort (fun p q => p.1 ≤ q.1)

/-! ## Data model: `Entry` (from `khoj.utils.rawconfig`) -/

/-- An indexable unit of content.  `corpus_id` (a UUID in the source) is
modelled as a `Nat`. -/
structure Entry where
  raw : String
  compiled : String
  heading : String
  file : String
  corpus_id : Nat
deriving DecidableEq, Repr

/-- Fallback value for the (unreachable) miss case of Python dict lookups. -/
def defaultEntry : Entry :=
  { raw := "", compiled := "", heading := "", file := "", corpus_id := 0 }

/-- Model of `TextEmbeddings.hash_func`: `lambda entry: md5(getattr(entry, key))`.
The md5 digest itself is the abstract parameter `md5`; the field name `key` is
the accessor function. -/
def hash_func (md5 : String → String) (key : Entry → String) (entry : Entry) : String :=
  md5 (key entry)

/-- Model of `dict(zip(hashes, entries))[h]`: on duplicate keys the Python dict
keeps the last value, so the lookup returns the last entry with the given hash.
The default is never reached for hashes drawn from `entries`. -/
def hashLookup (hf : Entry → String) (entries : List Entry) (h : String) : Entry :=
  ((entries.filter (fun e => hf e = h)).getLast?).getD defaultEntry

/-! ## Chunker: `TextEmbeddings.split_entries_by_max_tokens` -/

/-- The last 100 characters of the heading (`entry.heading[-100:]`). -/
def snipHeading (heading : String) : String := strTakeRight heading 100

/-- Words of a compiled entry: split on spaces, drop empty strings, then drop
words longer than `max_word_length`. -/
def entryWords (compiled : String) (max_word_length : Nat) : List String :=
  ((splitOnSpace compiled).filter (fun w => w ≠ "")).filter
    (fun w => w.length ≤ max_word_length)

/-- All chunks derived from one input entry, its per-entry fresh uuid being
`corpus_id`.  Chunks after the first get `snipped_heading ++ ".\n"` prepended
(the Python guard `chunk_index > 0` on the word index equals, for
`max_tokens ≥ 1`, the condition that the chunk ordinal is positive). -/
def chunksOfEntry (corpus_id : Nat) (entry : Entry) (max_tokens max_word_length : Nat) :
    List Entry :=
  (listChunks max_tokens (entryWords entry.compiled max_word_length)).enum.map
    (fun p =>
      { raw := entry.raw
        heading := entry.heading
        file := entry.file
        corpus_id := corpus_id
        compiled :=
          if p.1 = 0 then " ".intercalate p.2
          else snipHeading entry.heading ++ ".\n" ++ " ".intercalate p.2 })

/-- Model of `TextEmbeddings.split_entries_by_max_tokens` (defaults in the
source: `max_tokens = 256`, `max_word_length = 500`). -/
def split_entries_by_max_tokens (entries : List Entry) (max_tokens max_word_length : Nat) :
    List Entry :=
  entries.enum.flatMap (fun p => chunksOfEntry p.1 p.2 max_tokens max_word_length)

/-! ## Diff Engine (list-backed): `TextEmbeddings.mark_entries_for_update`
(with the default `key="compiled"` used by all claims) -/

/-- Hash list of an entry list (`list(map(hash_func(key), entries))`). -/
def entryHashes (hf : Entry → String) (entries : List Entry) : List String :=
  entries.map hf

/-- Hashes of the previous entries that live in marked-for-deletion files
(`deletion_entry_hashes`; `[]` when `deletion_filenames is None`). -/
def deletionEntryHashes (hf : Entry → String) (prev : List Entry)
    (deletion_filenames : Option (List String)) : List String :=
  match deletion_filenames with
  | none => []
  | some dfs => (prev.filter (fun e => e.file ∈ dfs)).map hf

/-- Model of `new_entry_hashes = set(current) - set(previous)`. -/
def newEntryHashes (hf : Entry → String) (cur prev : List Entry) : List String :=
  firstDedup ((entryHashes hf cur).filter (fun h => h ∉ entryHashes hf prev))

/-- Model of `existing_entry_hashes = set(current) & set(previous)`. -/
def existingEntryHashes (hf : Entry → String) (cur prev : List Entry) : List String :=
  firstDedup ((entryHashes hf cur).filter (fun h => h ∈ entryHashes hf prev))

/-- Model of `remaining_entry_hashes = set(previous) - set(current)`. -/
def remainingEntryHashes (hf : Entry → String) (cur prev : List Entry) : List String :=
  firstDedup ((entryHashes hf prev).filter (fun h => h ∉ entryHashes hf cur))

/-- Model of `to_delete_entry_hashes = set(previous) & set(deletion_entry_hashes)`. -/
def toDeleteEntryHashes (hf : Entry → String) (prev : List Entry)
    (deletion_filenames : Option (List String)) : List String :=
  firstDedup ((entryHashes hf prev).filter
    (fun h => h ∈ deletionEntryHashes hf prev deletion_filenames))

/-- Model of `preserving_entry_hashes`: `existing` when `deletion_filenames is None`;
otherwise `existing ∪ remaining` when no previous entry lies in a deleted file,
else `set(previous) - to_delete`. -/
def preservingEntryHashes (hf : Entry → String) (cur prev : List Entry)
    (deletion_filenames : Option (List String)) : List String :=
  match deletion_filenames with
  | none => existingEntryHashes hf cur prev
  | some dfs =>
    if deletionEntryHashes hf prev (some dfs) = [] then
      firstDedup (existingEntryHashes hf cur prev ++ remainingEntryHashes hf cur prev)
    else
      firstDedup ((entryHashes hf prev).filter
        (fun h => h ∉ toDeleteEntryHashes hf prev (some dfs)))

/-- The `existing_entries_sorted` part of the output: preserved hashes carry
their first index in the previous hash list and the last previous entry with
that hash, sorted by that index. -/
def markExistingPart (hf : Entry → String) (cur prev : List Entry)
    (deletion_filenames : Option (List String)) : List (Int × Entry) :=
  (sortByFst ((preservingEntryHashes hf cur prev deletion_filenames).map
    (fun h => (List.indexOf h (entryHashes hf prev), hashLookup hf prev h)))).map
    (fun p => ((p.1 : Int), p.2))

/-- The `new_entries_sorted` part of the output: new hashes carry their first
index in the current hash list, are sorted by it, then remapped to the sentinel
id `-1`. -/
def markNewPart (hf : Entry → String) (cur prev : List Entry) : List (Int × Entry) :=
  (sortByFst ((newEntryHashes hf cur prev).map
    (fun h => (List.indexOf h (entryHashes hf cur), hashLookup hf cur h)))).map
    (fun p => ((-1 : Int), p.2))

/-- Model of `TextEmbeddings.mark_entries_for_update` (list-backed diff), with
the default `key="compiled"`. -/
def mark_entries_for_update (md5 : String → String) (current_entries previous_entries : List Entry)
    (deletion_filenames : Option (List String)) : List (Int × Entry) :=
  markExistingPart (hash_func md5 Entry.compiled) current_entries previous_entries
      deletion_filenames
    ++ markNewPart (hash_func md5 Entry.compiled) current_entries previous_entries

example : splitOnSpace ("a  b ") = ["a", "", "b", ""] := by decide
example : listChunks 2 [1, 2, 3, 4, 5] = [[1, 2], [3, 4], [5]] := by decide
example : firstDedup [1, 2, 1, 3, 2] = [1, 2, 3] := by decide
example :
    mark_entries_for_update id []
      [{ raw := "r", compiled := "a", heading := "h", file := "f", corpus_id := 0 }] none
      = [] := by decide

/-! ## Embedding store and Index Updater: `TextEmbeddings.update_embeddings`

The persistence layer (`database.models.Embeddings`, `database.adapters.
EmbeddingsAdapters`) is code of this repository that is not under `src/`; it is
modelled from the spec (§3 EmbeddingRecord, §6 Store interface).  The store is
a list of records; the embedding model and the date extractor are abstract
collaborator parameters.  The vector type `V` is abstract (§6 treats vectors as
opaque). -/

/-- Modelled from the spec: the persisted `EmbeddingRecord` (`database.models.
Embeddings`, not under `src/`): owner, vector, `raw`/`compiled`/`heading`
copied from the entry (heading truncated), `file_path`, `content_type`,
`content_hash`, `corpus_id`. -/
structure EmbeddingRecord (V : Type) where
  user : Nat
  embeddings : V
  raw : String
  compiled : String
  heading : String
  file_path : String
  file_type : String
  hashed_value : String
  corpus_id : Nat
deriving DecidableEq, Repr

section IndexUpdater

variable {V : Type} [DecidableEq V]

/-- Modelled from the spec: the store query
`Embeddings.objects.filter(user=…, hashed_value__in=…, file_type=…)`
(the Django model manager is not under `src/`): all records matching all three
scopes. -/
def storeFilterByHashes (store : List (EmbeddingRecord V)) (user : Nat)
    (hashes : List String) (file_type : String) : List (EmbeddingRecord V) :=
  store.filter (fun r => r.user = user ∧ r.hashed_value ∈ hashes ∧ r.file_type = file_type)

/-- Modelled from the spec: `EmbeddingsAdapters.delete_all_embeddings(user,
file_type)` (not under `src/`): the "delete all for owner+content_type" bulk
operation, returning the deleted count. -/
def delete_all_embeddings (store : List (EmbeddingRecord V)) (user : Nat)
    (file_type : String) : List (EmbeddingRecord V) × Nat :=
  (store.filter (fun r => ¬(r.user = user ∧ r.file_type = file_type)),
   (store.filter (fun r => r.user = user ∧ r.file_type = file_type)).length)

/-- Modelled from the spec: `EmbeddingsAdapters.get_existing_entry_hashes_by_file
(user, file)` (not under `src/`): hashes of the owner's records for that file
path.  The call site passes no content type, so no content-type scope applies. -/
def get_existing_entry_hashes_by_file (store : List (EmbeddingRecord V)) (user : Nat)
    (file : String) : List String :=
  (store.filter (fun r => r.user = user ∧ r.file_path = file)).map
    (fun r => r.hashed_value)

/-- Modelled from the spec: `EmbeddingsAdapters.delete_embedding_by_hash(user,
hashed_values)` (not under `src/`): "every record with a hash in H_stale is
deleted" — removes the owner's records whose hash is listed.  The call site
passes neither file path nor content type. -/
def delete_embedding_by_hash (store : List (EmbeddingRecord V)) (user : Nat)
    (hashes : List String) : List (EmbeddingRecord V) :=
  store.filter (fun r => ¬(r.user = user ∧ r.hashed_value ∈ hashes))

/-- Modelled from the spec: `EmbeddingsAdapters.delete_embedding_by_file(user,
file_path)` (not under `src/`): removes the owner's records for that file path,
returning the deleted count. -/
def delete_embedding_by_file (store : List (EmbeddingRecord V)) (user : Nat)
    (file : String) : List (EmbeddingRecord V) × Nat :=
  (store.filter (fun r => ¬(r.user = user ∧ r.file_path = file)),
   (store.filter (fun r => r.user = user ∧ r.file_path = file)).length)

/-- Modelled from the spec: `DateAssociation` rows are dependent index entries,
"destroyed automatically whenever its EmbeddingRecord is destroyed"; after any
store deletion the date rows of removed records disappear with them. -/
def cascadeDates (store : List (EmbeddingRecord V))
    (dates : List (Int × EmbeddingRecord V)) : List (Int × EmbeddingRecord V) :=
  dates.filter (fun p => p.2 ∈ store)

/-- Running state of one `update_embeddings` call.  `store`, `dates`,
`num_new`, `num_deleted` mirror the Python state; `embedCalls` is a ghost trace
of the argument lists passed to `embeddings_model.embed_documents`, and
`created` is a ghost list of the records created by this run (both are write-
only instrumentation that the control flow never reads). -/
structure UpdateResult (V : Type) where
  store : List (EmbeddingRecord V)
  dates : List (Int × EmbeddingRecord V)
  num_new : Nat
  num_deleted : Nat
  embedCalls : List (List String)
  created : List (EmbeddingRecord V)
deriving DecidableEq, Repr

/-- Keys of `hashes_by_file` (a Python dict built by `setdefault` over the
current entries, hence iterated in first-occurrence order of `entry.file`). -/
def filesOf (entries : List Entry) : List String :=
  firstDedup (entries.map (fun e => e.file))

/-- Value of `hashes_by_file[file]`: the set of hashes of the current entries
of that file. -/
def fileHashes (hf : Entry → String) (entries : List Entry) (file : String) : List String :=
  firstDedup ((entries.filter (fun e => e.file = file)).map hf)

/-- Computation of `existing_entry_hashes` in the creation pass: hashes of the
store records matching the owner, the file's hash set, and the content type. -/
def existingHashesForFile (store : List (EmbeddingRecord V)) (user : Nat)
    (file_type : String) (hashesForFile : List String) : List String :=
  (storeFilterByHashes store user hashesForFile file_type).map (fun r => r.hashed_value)

/-- Computation of `hashes_to_process = hashes_for_file - existing_entry_hashes`. -/
def hashesToProcess (store : List (EmbeddingRecord V)) (user : Nat) (file_type : String)
    (hashesForFile : List String) : List String :=
  hashesForFile.filter (fun h => h ∉ existingHashesForFile store user file_type hashesForFile)

/-- Computation of `data_to_embed` for one file: the `compiled` text of
`hash_to_current_entries[h]` for each hash to process. -/
def dataToEmbedForFile (hf : Entry → String) (entries : List Entry)
    (store : List (EmbeddingRecord V)) (user : Nat) (file_type : String)
    (file : String) : List String :=
  (hashesToProcess store user file_type (fileHashes hf entries file)).map
    (fun h => (hashLookup hf entries h).compiled)

/-- Record built for one hash/vector pair: all text fields come from
`hash_to_current_entries[hashed_val]` (the last current entry with that hash),
the heading truncated to 1000 characters. -/
def recordOfHash (hf : Entry → String) (entries : List Entry) (user : Nat)
    (file_type : String) (h : String) (v : V) : EmbeddingRecord V :=
  { user := user
    embeddings := v
    raw := (hashLookup hf entries h).raw
    compiled := (hashLookup hf entries h).compiled
    heading := strTake (hashLookup hf entries h).heading 1000
    file_path := (hashLookup hf entries h).file
    file_type := file_type
    hashed_value := h
    corpus_id := (hashLookup hf entries h).corpus_id }

/-- Records of one `bulk_create` batch. -/
def recordsOfBatch (hf : Entry → String) (entries : List Entry) (user : Nat)
    (file_type : String) (batch : List (String × V)) : List (EmbeddingRecord V) :=
  batch.map (fun p => recordOfHash hf entries user file_type p.1 p.2)

/-- Date associations derived for a batch of newly created records:
`extract_dates` over each record's `raw` text. -/
def datesOfRecords (extract_dates : String → List Int)
    (records : List (EmbeddingRecord V)) : List (Int × EmbeddingRecord V) :=
  records.flatMap (fun r => (extract_dates r.raw).map (fun d => (d, r)))

/-- Assertion-failure message for the embedding-count contract violation
(`assert num_items == len(embeddings)`). -/
def embeddingCountMismatch : String := "assert num_items == len(embeddings)"

/-- Batches (`grouper(zipped_vals, min(200, num_items))`) of hash/vector pairs
persisted for one file: the hashes to process zipped with the vectors the
embedding model returned for them. -/
def batchesForFile (embed : List String → List V) (hf : Entry → String)
    (entries : List Entry) (store : List (EmbeddingRecord V)) (user : Nat)
    (file_type : String) (file : String) : List (List (String × V)) :=
  listChunks (min 200 (hashesToProcess store user file_type (fileHashes hf entries file)).length)
    ((hashesToProcess store user file_type (fileHashes hf entries file)).zip
      (embed (dataToEmbedForFile hf entries store user file_type file)))

/-- All records created while processing one file (concatenation of its
`bulk_create` batches). -/
def newRecordsForFile (embed : List String → List V) (hf : Entry → String)
    (entries : List Entry) (store : List (EmbeddingRecord V)) (user : Nat)
    (file_type : String) (file : String) : List (EmbeddingRecord V) :=
  (batchesForFile embed hf entries store user file_type file).flatMap
    (fun b => recordsOfBatch hf entries user file_type b)

/-- All date rows created while processing one file (per batch, from the
batch's new records). -/
def newDatesForFile (embed : List String → List V) (extract_dates : String → List Int)
    (hf : Entry → String) (entries : List Entry) (store : List (EmbeddingRecord V))
    (user : Nat) (file_type : String) (file : String) : List (Int × EmbeddingRecord V) :=
  (batchesForFile embed hf entries store user file_type file).flatMap
    (fun b => datesOfRecords extract_dates (recordsOfBatch hf entries user file_type b))

/-- Body of the creation pass for one file: query the store for already-present
hashes, embed the missing ones in a single `embed_documents` call, assert the
returned vector count, then persist the records (and their date rows) in
`bulk_create` batches of size `min 200 num_items`.  An assertion failure is the
`Except.error` case and aborts before anything from the mismatched vectors is
persisted. -/
def processFile (embed : List String → List V) (extract_dates : String → List Int)
    (hf : Entry → String) (entries : List Entry) (user : Nat) (file_type : String)
    (file : String) (acc : UpdateResult V) : Except String (UpdateResult V) :=
  if (hashesToProcess acc.store user file_type (fileHashes hf entries file)).length
      = (embed (dataToEmbedForFile hf entries acc.store user file_type file)).length then
    Except.ok
      { store := acc.store ++ newRecordsForFile embed hf entries acc.store user file_type file
        dates := acc.dates
          ++ newDatesForFile embed extract_dates hf entries acc.store user file_type file
        num_new := acc.num_new
          + (newRecordsForFile embed hf entries acc.store user file_type file).length
        num_deleted := acc.num_deleted
        embedCalls := acc.embedCalls
          ++ [dataToEmbedForFile hf entries acc.store user file_type file]
        created := acc.created
          ++ newRecordsForFile embed hf entries acc.store user file_type file }
  else Except.error embeddingCountMismatch

/-- Creation pass over the files of `hashes_by_file`, in order. -/
def processFiles (embed : List String → List V) (extract_dates : String → List Int)
    (hf : Entry → String) (entries : List Entry) (user : Nat) (file_type : String) :
    List String → UpdateResult V → Except String (UpdateResult V)
  | [], acc => Except.ok acc
  | f :: fs, acc =>
    match processFile embed extract_dates hf entries user file_type f acc with
    | Except.error msg => Except.error msg
    | Except.ok acc1 => processFiles embed extract_dates hf entries user file_type fs acc1

/-- Stale-hash deletion for one file: `to_delete = set(existing hashes for the
file) - hashes_by_file[file]`, counted by hash and deleted by
`delete_embedding_by_hash`. -/
def staleFile (hf : Entry → String) (entries : List Entry) (user : Nat) (file : String)
    (acc : UpdateResult V) : UpdateResult V :=
  let toDelete := (firstDedup (get_existing_entry_hashes_by_file acc.store user file)).filter
    (fun h => h ∉ fileHashes hf entries file)
  { acc with
    store := delete_embedding_by_hash acc.store user toDelete
    dates := cascadeDates (delete_embedding_by_hash acc.store user toDelete) acc.dates
    num_deleted := acc.num_deleted + toDelete.length }

/-- Stale-hash deletion pass over the files of `hashes_by_file`, in order. -/
def stalePass (hf : Entry → String) (entries : List Entry) (user : Nat) :
    List String → UpdateResult V → UpdateResult V
  | [], acc => acc
  | f :: fs, acc => stalePass hf entries user fs (staleFile hf entries user f acc)

/-- Explicit-deletion pass: `delete_embedding_by_file` for every path in
`deletion_filenames`. -/
def deletionPass (user : Nat) : List String → UpdateResult V → UpdateResult V
  | [], acc => acc
  | p :: ps, acc =>
    deletionPass user ps
      { acc with
        store := (delete_embedding_by_file acc.store user p).1
        dates := cascadeDates (delete_embedding_by_file acc.store user p).1 acc.dates
        num_deleted := acc.num_deleted + (delete_embedding_by_file acc.store user p).2 }

/-- Model of `TextEmbeddings.update_embeddings` (with the default
`key="compiled"`): optional regeneration wipe, per-file creation pass, per-file
stale-hash deletion pass, then the explicit `deletion_filenames` pass.
Returns the final store/date state and `(num_new_embeddings,
num_deleted_embeddings)`, or `Except.error` when the embedding-count assertion
fails (the `AssertionError` propagating out of the Python function). -/
def update_embeddings (embed : List String → List V) (extract_dates : String → List Int)
    (md5 : String → String) (current_entries : List Entry) (file_type : String)
    (deletion_filenames : Option (List String)) (user : Nat) (regenerate : Bool)
    (store : List (EmbeddingRecord V)) (dates : List (Int × EmbeddingRecord V)) :
    Except String (UpdateResult V) :=
  let hf := hash_func md5 Entry.compiled
  let init := if regenerate then delete_all_embeddings store user file_type else (store, 0)
  let acc0 : UpdateResult V :=
    { store := init.1
      dates := cascadeDates init.1 dates
      num_new := 0
      num_deleted := init.2
      embedCalls := []
      created := [] }
  match processFiles embed extract_dates hf current_entries user file_type
      (filesOf current_entries) acc0 with
  | Except.error msg => Except.error msg
  | Except.ok acc1 =>
    let acc2 := stalePass hf current_entries user (filesOf current_entries) acc1
    Except.ok
      (match deletion_filenames with
       | none => acc2
       | some dfs => deletionPass user dfs acc2)

end IndexUpdater

example :
    (update_embeddings (fun l => l.map (fun _ => (0 : Nat))) (fun _ => [])
        id [{ raw := "r", compiled := "a", heading := "h", file := "f", corpus_id := 3 }]
        ("org") none 0 false [] []).map (fun r => (r.num_new, r.num_deleted))
      = Except.ok (1, 0) := by decide

/-! ## Helper lemmas: dedup, chunking, lookup, sorting -/

theorem mem_firstDedup {α : Type} [DecidableEq α] {a : α} {l : List α} :
    a ∈ firstDedup l ↔ a ∈ l := by
  induction l with
  | nil => simp [firstDedup]
  | cons b l ih =>
    by_cases hab : a = b
    · subst hab
      simp [firstDedup]
    · simp [firstDedup, List.mem_filter, hab, ih]

theorem nodup_firstDedup {α : Type} [DecidableEq α] (l : List α) :
    (firstDedup l).Nodup := by
  induction l with
  | nil => simp [firstDedup]
  | cons b l ih =>
    refine List.Nodup.cons ?_ (List.Nodup.filter _ ih)
    intro hb
    have := (List.mem_filter.mp hb).2
    simp at this

theorem flatten_listChunksFuel {α : Type} {fuel n : Nat} {l : List α}
    (h : l.length ≤ fuel) : (listChunksFuel fuel n l).flatten = l := by
  induction fuel generalizing l with
  | zero =>
    have : l = [] := List.eq_nil_of_length_eq_zero (Nat.le_zero.mp h)
    subst this
    simp [listChunksFuel]
  | succ fuel ih =>
    cases l with
    | nil => simp [listChunksFuel]
    | cons x xs =>
      have hlen : (xs.drop (n - 1)).length ≤ fuel := by
        have h1 : (xs.drop (n - 1)).length ≤ xs.length := by
          simp [List.length_drop]
        have h2 : xs.length ≤ fuel := Nat.le_of_succ_le_succ h
        exact Nat.le_trans h1 h2
      simp only [listChunksFuel, List.flatten_cons, ih hlen]
      simp [List.take_append_drop]

theorem flatten_listChunks {α : Type} (n : Nat) (l : List α) :
    (listChunks n l).flatten = l :=
  flatten_listChunksFuel (Nat.le_refl _)

theorem mem_listChunksFuel {α : Type} {fuel n : Nat} {l : List α} {c : List α}
    (hn : 0 < n) (hc : c ∈ listChunksFuel fuel n l) :
    c ≠ [] ∧ c.length ≤ n ∧ ∀ x ∈ c, x ∈ l := by
  induction fuel generalizing l with
  | zero => simp [listChunksFuel] at hc
  | succ fuel ih =>
    cases l with
    | nil => simp [listChunksFuel] at hc
    | cons x xs =>
      simp only [listChunksFuel, List.mem_cons] at hc
      rcases hc with hc | hc
      · subst hc
        refine ⟨by simp, ?_, ?_⟩
        · have : (xs.take (n - 1)).length ≤ n - 1 := by
            simp [List.length_take]
          have := Nat.add_le_add_left this 1
          simp only [List.length_cons]
          omega
        · intro y hy
          rcases List.mem_cons.mp hy with hy | hy
          · simp [hy]
          · exact List.mem_cons_of_mem _ (List.mem_of_mem_take hy)
      · rcases ih hc with ⟨h1, h2, h3⟩
        exact ⟨h1, h2, fun y hy => List.mem_cons_of_mem _ (List.mem_of_mem_drop (h3 y hy))⟩

theorem mem_listChunks {α : Type} {n : Nat} {l : List α} {c : List α}
    (hn : 0 < n) (hc : c ∈ listChunks n l) :
    c ≠ [] ∧ c.length ≤ n ∧ ∀ x ∈ c, x ∈ l :=
  mem_listChunksFuel hn hc

theorem listChunks_nil {α : Type} (n : Nat) : listChunks n ([] : List α) = [] := by
  simp [listChunks, listChunksFuel]

theorem hashLookup_spec {hf : Entry → String} {entries : List Entry} {h : String}
    (hmem : h ∈ entries.map hf) :
    (entries.filter (fun e => hf e = h)).getLast? = some (hashLookup hf entries h)
      ∧ hashLookup hf entries h ∈ entries
      ∧ hf (hashLookup hf entries h) = h := by
  rcases List.mem_map.mp hmem with ⟨e, he, hfe⟩
  have hef : e ∈ entries.filter (fun e => hf e = h) := by
    simp [List.mem_filter, he, hfe]
  have hne : entries.filter (fun e => hf e = h) ≠ [] := List.ne_nil_of_mem hef
  have hlast : (entries.filter (fun e => hf e = h)).getLast? =
      some ((entries.filter (fun e => hf e = h)).getLast hne) :=
    List.getLast?_eq_getLast _ hne
  have hmeml : (entries.filter (fun e => hf e = h)).getLast hne ∈
      entries.filter (fun e => hf e = h) := List.getLast_mem hne
  have hlk : hashLookup hf entries h = (entries.filter (fun e => hf e = h)).getLast hne := by
    unfold hashLookup
    rw [hlast]
    rfl
  rcases List.mem_filter.mp hmeml with ⟨hmem2, hpred⟩
  refine ⟨?_, by rw [hlk]; exact hmem2, ?_⟩
  · rw [hlk]
    exact hlast
  · rw [hlk]
    exact of_decide_eq_true hpred

theorem intercalate_go_length (acc s : String) (as : List String) :
    acc.length ≤ (String.intercalate.go acc s as).length := by
  induction as generalizing acc with
  | nil => simp [String.intercalate.go]
  | cons a as ih =>
    simp only [String.intercalate.go]
    have h1 : acc.length ≤ (acc ++ s ++ a).length := by
      simp [String.length_append]
      omega
    exact Nat.le_trans h1 (ih _)

theorem head_length_le_intercalate (w s : String) (ws : List String) :
    w.length ≤ (String.intercalate s (w :: ws)).length := by
  simp only [String.intercalate]
  exact intercalate_go_length w s ws

theorem length_pos_of_ne_empty {s : String} (h : s ≠ "") : 0 < s.length := by
  cases s with
  | mk data =>
    cases data with
    | nil => exact absurd rfl h
    | cons c cs => simp [String.length]

theorem ne_empty_of_length_pos {s : String} (h : 0 < s.length) : s ≠ "" := by
  intro he
  subst he
  simp at h

theorem snd_mem_of_mem_enum {α : Type} {p : Nat × α} {l : List α} (h : p ∈ l.enum) :
    p.2 ∈ l := by
  rcases p with ⟨i, a⟩
  rcases List.mem_enumFrom h with ⟨_, hlt, hget⟩
  simp only [Nat.zero_add] at hlt
  show a ∈ l
  rw [hget]
  exact List.getElem_mem (by omega)

/-- Structure of every chunk produced from one entry: metadata fields are
copied, and `compiled` is the space-join of a nonempty block of at most
`max_tokens` filtered words — either bare (first chunk) or with the snipped
heading prepended (later chunks). -/
theorem chunksOfEntry_structure {cid : Nat} {entry : Entry} {mt mwl : Nat} (hmt : 0 < mt)
    {c : Entry} (hc : c ∈ chunksOfEntry cid entry mt mwl) :
    c.raw = entry.raw ∧ c.heading = entry.heading ∧ c.file = entry.file ∧
    c.corpus_id = cid ∧
    ∃ ws : List String, ws ≠ [] ∧ ws.length ≤ mt ∧
      (∀ w ∈ ws, w ≠ "" ∧ w.length ≤ mwl) ∧
      (c.compiled = " ".intercalate ws ∨
        c.compiled = snipHeading entry.heading ++ ".\n" ++ " ".intercalate ws) := by
  rcases List.mem_map.mp hc with ⟨p, hp, hpc⟩
  have hws : p.2 ∈ listChunks mt (entryWords entry.compiled mwl) := snd_mem_of_mem_enum hp
  rcases mem_listChunks hmt hws with ⟨hne, hlen, hsub⟩
  subst hpc
  refine ⟨rfl, rfl, rfl, rfl, p.2, hne, hlen, ?_, ?_⟩
  · intro w hw
    have hw2 := hsub w hw
    unfold entryWords at hw2
    rcases List.mem_filter.mp hw2 with ⟨hw3, hlenw⟩
    rcases List.mem_filter.mp hw3 with ⟨_, hwne⟩
    exact ⟨of_decide_eq_true hwne, of_decide_eq_true hlenw⟩
  · by_cases h0 : p.1 = 0
    · left
      simp [h0]
    · right
      simp [h0]

/-- Claim C2 (counterexample): with `max_tokens = 1`, `max_word_length = 500`,
the single entry with `compiled = "a b"` and `heading = "h g"` yields a second
chunk whose `compiled` is `"h g.\nb"`, which splits on spaces into 2 > 1 words
— the chunk bound does not hold for chunks after the first, because the
prepended heading snippet adds its own space-separated words on top of the
`max_tokens`-word chunk body. -/
theorem chunk_bound_counterexample_C2 :
    (split_entries_by_max_tokens
        [{ raw := "r", compiled := "a b", heading := "h g", file := "f", corpus_id := 7 }]
        1 500).map (fun c => c.compiled) = ["a", "h g.\nb"]
      ∧ ¬ ((splitOnSpace ("h g.\nb")).length ≤ 1) := by
  constructor
  · decide
  · decide

/-- Claim C2 (amended): every chunk returned by `split_entries_by_max_tokens`
(for `max_tokens ≥ 1`; Python raises on 0) is built from a nonempty block of at
most `max_tokens` words, each nonempty and at most `max_word_length` characters
long: its `compiled` is either the space-join of that block (first chunk of an
entry) or the last-100-character heading snippet plus `".\n"` plus that join
(later chunks).  The token/word-length bounds hold for the chunk body; the
prepended heading snippet may push the full `compiled` of later chunks above
them. -/
theorem chunk_bound_amended_C2 (entries : List Entry) (mt mwl : Nat) (hmt : 0 < mt) :
    ∀ c ∈ split_entries_by_max_tokens entries mt mwl,
      ∃ ws : List String, ws ≠ [] ∧ ws.length ≤ mt ∧
        (∀ w ∈ ws, w ≠ "" ∧ w.length ≤ mwl) ∧
        (c.compiled = " ".intercalate ws ∨
          c.compiled = snipHeading c.heading ++ ".\n" ++ " ".intercalate ws) := by
  intro c hc
  rcases List.mem_flatMap.mp hc with ⟨p, _, hcp⟩
  rcases chunksOfEntry_structure hmt hcp with ⟨_, hh, _, _, ws, h1, h2, h3, h4⟩
  refine ⟨ws, h1, h2, h3, ?_⟩
  rw [hh]
  exact h4

/-- Witness for `chunk_bound_amended_C2` at a concrete input. -/
theorem chunk_bound_amended_C2_witness :
    0 < 1 ∧
    ∀ c ∈ split_entries_by_max_tokens
        [{ raw := "r", compiled := "a b", heading := "h g", file := "f", corpus_id := 7 }]
        1 500,
      ∃ ws : List String, ws ≠ [] ∧ ws.length ≤ 1 ∧
        (∀ w ∈ ws, w ≠ "" ∧ w.length ≤ 500) ∧
        (c.compiled = " ".intercalate ws ∨
          c.compiled = snipHeading c.heading ++ ".\n" ++ " ".intercalate ws) :=
  ⟨Nat.one_pos, chunk_bound_amended_C2 _ 1 500 Nat.one_pos⟩

/-- Claim C8 (confirmed): all chunks that `split_entries_by_max_tokens` derives
from one input entry carry the same `corpus_id`, and chunks derived from two
different input entries (positions `i ≠ j`) never share a `corpus_id` — the
per-entry uuid4 draw is modelled as the entry's position. -/
theorem shared_corpus_identity_C8 (entries : List Entry) (mt mwl : Nat) (hmt : 0 < mt)
    (i j : Nat) (hi : i < entries.length) (hj : j < entries.length)
    (c1 c2 : Entry)
    (h1 : c1 ∈ chunksOfEntry i (entries.get ⟨i, hi⟩) mt mwl)
    (h2 : c2 ∈ chunksOfEntry j (entries.get ⟨j, hj⟩) mt mwl) :
    c1 ∈ split_entries_by_max_tokens entries mt mwl ∧
    c2 ∈ split_entries_by_max_tokens entries mt mwl ∧
    (c1.corpus_id = c2.corpus_id ↔ i = j) := by
  have hmem : ∀ (k : Nat) (hk : k < entries.length),
      (k, entries.get ⟨k, hk⟩) ∈ entries.enum := by
    intro k hk
    have hk2 : k < entries.enum.length := by
      rw [List.enum_length]
      exact hk
    have hge := List.getElem_enum entries k hk2
    have : (k, entries.get ⟨k, hk⟩) = entries.enum[k] := by
      rw [hge]
      simp [List.get_eq_getElem]
    rw [this]
    exact List.getElem_mem hk2
  have hc1 : c1 ∈ split_entries_by_max_tokens entries mt mwl :=
    List.mem_flatMap.mpr ⟨(i, entries.get ⟨i, hi⟩), hmem i hi, h1⟩
  have hc2 : c2 ∈ split_entries_by_max_tokens entries mt mwl :=
    List.mem_flatMap.mpr ⟨(j, entries.get ⟨j, hj⟩), hmem j hj, h2⟩
  have hid1 : c1.corpus_id = i := (chunksOfEntry_structure hmt h1).2.2.2.1
  have hid2 : c2.corpus_id = j := (chunksOfEntry_structure hmt h2).2.2.2.1
  refine ⟨hc1, hc2, ?_⟩
  rw [hid1, hid2]

/-- Witness for `shared_corpus_identity_C8` at a concrete input: the two
entries produce chunks with corpus ids 0 and 1, which differ. -/
theorem shared_corpus_identity_C8_witness :
    ({ raw := "r", compiled := "a", heading := "", file := "f", corpus_id := 0 } : Entry)
        ∈ split_entries_by_max_tokens
          [{ raw := "r", compiled := "a", heading := "", file := "f", corpus_id := 9 },
           { raw := "s", compiled := "b", heading := "", file := "f", corpus_id := 9 }] 1 500 ∧
    ({ raw := "s", compiled := "b", heading := "", file := "f", corpus_id := 1 } : Entry)
        ∈ split_entries_by_max_tokens
          [{ raw := "r", compiled := "a", heading := "", file := "f", corpus_id := 9 },
           { raw := "s", compiled := "b", heading := "", file := "f", corpus_id := 9 }] 1 500 ∧
    ((({ raw := "r", compiled := "a", heading := "", file := "f", corpus_id := 0 } : Entry).corpus_id
        = ({ raw := "s", compiled := "b", heading := "", file := "f", corpus_id := 1 } : Entry).corpus_id)
      ↔ (0 : Nat) = 1) :=
  shared_corpus_identity_C8
    [{ raw := "r", compiled := "a", heading := "", file := "f", corpus_id := 9 },
     { raw := "s", compiled := "b", heading := "", file := "f", corpus_id := 9 }]
    1 500 Nat.one_pos 0 1 (by decide) (by decide) _ _ (by decide) (by decide)

/-- Claim C9 (confirmed): no chunk returned by `split_entries_by_max_tokens`
has an empty `compiled`, and an entry whose word list is empty after
whitespace-splitting and over-length filtering contributes zero chunks. -/
theorem nonempty_chunks_C9 (entries : List Entry) (mt mwl : Nat) (hmt : 0 < mt) :
    (∀ c ∈ split_entries_by_max_tokens entries mt mwl, c.compiled ≠ "") ∧
    (∀ p ∈ entries.enum, entryWords p.2.compiled mwl = [] →
      chunksOfEntry p.1 p.2 mt mwl = []) := by
  constructor
  · intro c hc
    rcases List.mem_flatMap.mp hc with ⟨p, _, hcp⟩
    rcases chunksOfEntry_structure hmt hcp with ⟨_, _, _, _, ws, h1, _, h3, h4⟩
    cases ws with
    | nil => exact absurd rfl h1
    | cons w rest =>
      have hw : w ≠ "" := (h3 w (List.mem_cons_self _ _)).1
      have hwlen : 0 < w.length := length_pos_of_ne_empty hw
      rcases h4 with h4 | h4
      · rw [h4]
        apply ne_empty_of_length_pos
        exact Nat.lt_of_lt_of_le hwlen (head_length_le_intercalate w _ rest)
      · rw [h4]
        apply ne_empty_of_length_pos
        rw [String.length_append, String.length_append]
        have h2 : (".\n" : String).length = 2 := by decide
        omega
  · intro p _ hw
    unfold chunksOfEntry
    rw [hw, listChunks_nil]
    rfl

/-- Witness for `nonempty_chunks_C9` at a concrete input (the second entry's
compiled text is a single word longer than `max_word_length`, so it chunks to
nothing). -/
theorem nonempty_chunks_C9_witness :
    (∀ c ∈ split_entries_by_max_tokens
        [{ raw := "r", compiled := "a b c", heading := "h", file := "f", corpus_id := 0 },
         { raw := "s", compiled := "kilo", heading := "h", file := "f", corpus_id := 0 }]
        2 3, c.compiled ≠ "") ∧
    (∀ p ∈ ([{ raw := "r", compiled := "a b c", heading := "h", file := "f", corpus_id := 0 },
         { raw := "s", compiled := "kilo", heading := "h", file := "f", corpus_id := 0 }] :
          List Entry).enum,
      entryWords p.2.compiled 3 = [] → chunksOfEntry p.1 p.2 2 3 = []) :=
  nonempty_chunks_C9 _ 2 3 (by decide)

/-! ## Lemmas about the list-backed Diff Engine -/

instance instIsTotalFstLe {β : Type} : IsTotal (Nat × β) (fun p q => p.1 ≤ q.1) :=
  ⟨fun a b => Nat.le_total a.1 b.1⟩

instance instIsTransFstLe {β : Type} : IsTrans (Nat × β) (fun p q => p.1 ≤ q.1) :=
  ⟨fun _ _ _ => Nat.le_trans⟩

theorem sortByFst_sorted {β : Type} (l : List (Nat × β)) :
    (sortByFst l).Pairwise (fun p q => p.1 ≤ q.1) :=
  List.sorted_insertionSort _ l

theorem sortByFst_perm {β : Type} (l : List (Nat × β)) : (sortByFst l).Perm l :=
  List.perm_insertionSort _ l

theorem mem_sortByFst {β : Type} {l : List (Nat × β)} {p : Nat × β} :
    p ∈ sortByFst l ↔ p ∈ l :=
  List.Perm.mem_iff (sortByFst_perm l)

theorem sortByFst_pairwise_lt {β : Type} (l : List (Nat × β))
    (hnd : (l.map Prod.fst).Nodup) :
    (sortByFst l).Pairwise (fun p q => p.1 < q.1) := by
  have hs := sortByFst_sorted l
  have hnd2 : ((sortByFst l).map Prod.fst).Nodup :=
    (List.Perm.nodup_iff (List.Perm.map _ (sortByFst_perm l))).mpr hnd
  have hne : (sortByFst l).Pairwise (fun p q => p.1 ≠ q.1) :=
    List.pairwise_map.mp hnd2
  exact (hs.and hne).imp (fun h => Nat.lt_of_le_of_ne h.1 h.2)

theorem indexOf_inj_on {α : Type} [DecidableEq α] {l : List α} {a b : α}
    (ha : a ∈ l) (hb : b ∈ l) (h : l.indexOf a = l.indexOf b) : a = b := by
  have h1 := List.getElem_indexOf (List.indexOf_lt_length.mpr ha)
  have h2 := List.getElem_indexOf (List.indexOf_lt_length.mpr hb)
  rw [← h1, ← h2]
  simp [h]

theorem preserving_subset_prev {hf : Entry → String} {cur prev : List Entry}
    {dfs : Option (List String)} {h : String}
    (hm : h ∈ preservingEntryHashes hf cur prev dfs) : h ∈ entryHashes hf prev := by
  cases dfs with
  | none =>
    simp only [preservingEntryHashes, existingEntryHashes] at hm
    have := List.mem_filter.mp (mem_firstDedup.mp hm)
    exact of_decide_eq_true this.2
  | some dfs0 =>
    simp only [preservingEntryHashes] at hm
    by_cases hd : deletionEntryHashes hf prev (some dfs0) = []
    · rw [if_pos hd] at hm
      rcases List.mem_append.mp (mem_firstDedup.mp hm) with hm | hm
      · unfold existingEntryHashes at hm
        have := List.mem_filter.mp (mem_firstDedup.mp hm)
        exact of_decide_eq_true this.2
      · unfold remainingEntryHashes at hm
        exact (List.mem_filter.mp (mem_firstDedup.mp hm)).1
    · rw [if_neg hd] at hm
      exact (List.mem_filter.mp (mem_firstDedup.mp hm)).1

theorem nodup_preserving (hf : Entry → String) (cur prev : List Entry)
    (dfs : Option (List String)) : (preservingEntryHashes hf cur prev dfs).Nodup := by
  cases dfs with
  | none => exact nodup_firstDedup _
  | some dfs0 =>
    simp only [preservingEntryHashes]
    by_cases hd : deletionEntryHashes hf prev (some dfs0) = []
    · rw [if_pos hd]
      exact nodup_firstDedup _
    · rw [if_neg hd]
      exact nodup_firstDedup _

theorem new_subset_cur {hf : Entry → String} {cur prev : List Entry} {h : String}
    (hm : h ∈ newEntryHashes hf cur prev) : h ∈ entryHashes hf cur :=
  (List.mem_filter.mp (mem_firstDedup.mp hm)).1

/-- Membership in the preserving hash set, in closed form: the hash of a
previous entry, additionally present among the current hashes when
`deletion_filenames is None`, and not hashed from a marked-for-deletion
previous entry otherwise. -/
theorem mem_preserving_iff (hf : Entry → String) (cur prev : List Entry)
    (dfs : Option (List String)) (h : String) :
    h ∈ preservingEntryHashes hf cur prev dfs ↔
      (h ∈ entryHashes hf prev ∧
        match dfs with
        | none => h ∈ entryHashes hf cur
        | some dfs0 => h ∉ deletionEntryHashes hf prev (some dfs0)) := by
  cases dfs with
  | none =>
    simp only [preservingEntryHashes, existingEntryHashes]
    rw [mem_firstDedup, List.mem_filter]
    constructor
    · rintro ⟨h1, h2⟩
      exact ⟨of_decide_eq_true h2, h1⟩
    · rintro ⟨h1, h2⟩
      exact ⟨h2, decide_eq_true h1⟩
  | some dfs0 =>
    simp only [preservingEntryHashes]
    by_cases hd : deletionEntryHashes hf prev (some dfs0) = []
    · rw [if_pos hd, mem_firstDedup, List.mem_append]
      unfold existingEntryHashes remainingEntryHashes
      rw [mem_firstDedup, mem_firstDedup, List.mem_filter, List.mem_filter]
      constructor
      · rintro (⟨h1, h2⟩ | ⟨h1, h2⟩)
        · refine ⟨of_decide_eq_true h2, ?_⟩
          rw [hd]
          exact List.not_mem_nil h
        · refine ⟨h1, ?_⟩
          rw [hd]
          exact List.not_mem_nil h
      · rintro ⟨h1, _⟩
        by_cases hc : h ∈ entryHashes hf cur
        · exact Or.inl ⟨hc, decide_eq_true h1⟩
        · exact Or.inr ⟨h1, decide_eq_true hc⟩
    · rw [if_neg hd, mem_firstDedup, List.mem_filter]
      constructor
      · rintro ⟨h1, h2⟩
        refine ⟨h1, fun hdel => ?_⟩
        have h2' := of_decide_eq_true h2
        apply h2'
        unfold toDeleteEntryHashes
        rw [mem_firstDedup, List.mem_filter]
        exact ⟨h1, decide_eq_true hdel⟩
      · rintro ⟨h1, h2⟩
        refine ⟨h1, decide_eq_true (fun htd => ?_)⟩
        unfold toDeleteEntryHashes at htd
        have := List.mem_filter.mp (mem_firstDedup.mp htd)
        exact h2 (of_decide_eq_true this.2)

theorem mem_markExistingPart {hf : Entry → String} {cur prev : List Entry}
    {dfs : Option (List String)} {p : Int × Entry} :
    p ∈ markExistingPart hf cur prev dfs ↔
      ∃ h ∈ preservingEntryHashes hf cur prev dfs,
        p = (((entryHashes hf prev).indexOf h : Int), hashLookup hf prev h) := by
  unfold markExistingPart
  rw [List.mem_map]
  constructor
  · rintro ⟨q, hq, rfl⟩
    rcases List.mem_map.mp (mem_sortByFst.mp hq) with ⟨h, hh, rfl⟩
    exact ⟨h, hh, rfl⟩
  · rintro ⟨h, hh, rfl⟩
    refine ⟨((entryHashes hf prev).indexOf h, hashLookup hf prev h), ?_, rfl⟩
    exact mem_sortByFst.mpr (List.mem_map.mpr ⟨h, hh, rfl⟩)

theorem mem_markNewPart {hf : Entry → String} {cur prev : List Entry} {p : Int × Entry} :
    p ∈ markNewPart hf cur prev ↔
      ∃ h ∈ newEntryHashes hf cur prev, p = (-1, hashLookup hf cur h) := by
  unfold markNewPart
  rw [List.mem_map]
  constructor
  · rintro ⟨q, hq, rfl⟩
    rcases List.mem_map.mp (mem_sortByFst.mp hq) with ⟨h, hh, rfl⟩
    exact ⟨h, hh, rfl⟩
  · rintro ⟨h, hh, rfl⟩
    refine ⟨((entryHashes hf cur).indexOf h, hashLookup hf cur h), ?_, rfl⟩
    exact mem_sortByFst.mpr (List.mem_map.mpr ⟨h, hh, rfl⟩)

/-- Claim C3 (counterexample): with no deletion set, a previous entry whose
hash is absent from the current list is dropped, not kept: for
`current = []`, `previous = [p]`, the output of `mark_entries_for_update` is
empty although `hash(p)` is a "remaining" hash (in the previous hashes, not in
the current hashes), which the claim says must be preserved. -/
theorem diff_preserve_counterexample_C3 :
    mark_entries_for_update id []
        [{ raw := "r", compiled := "a", heading := "h", file := "f", corpus_id := 0 }] none
      = []
    ∧ hash_func id Entry.compiled
        { raw := "r", compiled := "a", heading := "h", file := "f", corpus_id := 0 }
      ∈ entryHashes (hash_func id Entry.compiled)
        [{ raw := "r", compiled := "a", heading := "h", file := "f", corpus_id := 0 }]
    ∧ hash_func id Entry.compiled
        { raw := "r", compiled := "a", heading := "h", file := "f", corpus_id := 0 }
      ∉ entryHashes (hash_func id Entry.compiled) [] := by
  refine ⟨?_, ?_, ?_⟩ <;> decide

/-- Claim C3 (amended): the preserved part of the output of
`mark_entries_for_update` (the pairs with non-negative ids, which precede the
sentinel `-1` pairs) covers, as a hash set: `existing = current ∩ previous`
when no deletion set is given (the `remaining` hashes are dropped); and
`previous − to_delete` when a deletion set is given (where `to_delete` are the
hashes of previous entries in deleted files — both branches of the code agree
with this because `existing ∪ remaining = previous` as hash sets). -/
theorem diff_preserve_amended_C3 (md5 : String → String) (cur prev : List Entry)
    (dfs : Option (List String)) (h : String) :
    (∃ p ∈ mark_entries_for_update md5 cur prev dfs,
        0 ≤ p.1 ∧ hash_func md5 Entry.compiled p.2 = h) ↔
      (h ∈ entryHashes (hash_func md5 Entry.compiled) prev ∧
        match dfs with
        | none => h ∈ entryHashes (hash_func md5 Entry.compiled) cur
        | some dfs0 =>
          h ∉ deletionEntryHashes (hash_func md5 Entry.compiled) prev (some dfs0)) := by
  rw [← mem_preserving_iff]
  constructor
  · rintro ⟨p, hp, hge, hfh⟩
    rcases List.mem_append.mp hp with hp | hp
    · rcases mem_markExistingPart.mp hp with ⟨h2, hh2, rfl⟩
      have hfe := (hashLookup_spec (preserving_subset_prev hh2)).2.2
      simp only at hfh
      rw [hfe] at hfh
      rw [← hfh]
      exact hh2
    · rcases mem_markNewPart.mp hp with ⟨h2, _, rfl⟩
      have hneg : ¬ ((0 : Int) ≤ -1) := by decide
      exact absurd hge hneg
  · intro hh
    refine ⟨(((entryHashes (hash_func md5 Entry.compiled) prev).indexOf h : Int),
        hashLookup (hash_func md5 Entry.compiled) prev h), ?_, ?_, ?_⟩
    · exact List.mem_append.mpr (Or.inl (mem_markExistingPart.mpr ⟨h, hh, rfl⟩))
    · exact Int.natCast_nonneg _
    · exact (hashLookup_spec (preserving_subset_prev hh)).2.2

/-- Witness for `diff_preserve_amended_C3` at a concrete input (one shared
entry, one current-only entry, one previous-only entry, no deletion set: the
shared hash is preserved). -/
theorem diff_preserve_amended_C3_witness :
    (∃ p ∈ mark_entries_for_update id
        [{ raw := "r", compiled := "a", heading := "h", file := "f", corpus_id := 0 },
         { raw := "r", compiled := "b", heading := "h", file := "f", corpus_id := 0 }]
        [{ raw := "r", compiled := "a", heading := "h", file := "f", corpus_id := 0 },
         { raw := "r", compiled := "c", heading := "h", file := "f", corpus_id := 0 }] none,
        0 ≤ p.1 ∧ hash_func id Entry.compiled p.2 = "a") ↔
      ("a" ∈ entryHashes (hash_func id Entry.compiled)
          [{ raw := "r", compiled := "a", heading := "h", file := "f", corpus_id := 0 },
           { raw := "r", compiled := "c", heading := "h", file := "f", corpus_id := 0 }] ∧
        match (none : Option (List String)) with
        | none => "a" ∈ entryHashes (hash_func id Entry.compiled)
            [{ raw := "r", compiled := "a", heading := "h", file := "f", corpus_id := 0 },
             { raw := "r", compiled := "b", heading := "h", file := "f", corpus_id := 0 }]
        | some dfs0 => "a" ∉ deletionEntryHashes (hash_func id Entry.compiled)
            [{ raw := "r", compiled := "a", heading := "h", file := "f", corpus_id := 0 },
             { raw := "r", compiled := "c", heading := "h", file := "f", corpus_id := 0 }]
            (some dfs0)) :=
  diff_preserve_amended_C3 id _ _ none ("a")

/-- Claim C7 (confirmed): the output of `mark_entries_for_update` is the
preserved part followed by the new part; every preserved pair carries a
non-negative id equal to the first index of its entry's hash in the previous
hash list, and the preserved pairs appear in strictly increasing id order;
every new pair carries the sentinel id `-1`, and the new pairs appear in
strictly increasing order of their hash's first index in the current hash
list. -/
theorem diff_ordering_C7 (md5 : String → String) (cur prev : List Entry)
    (dfs : Option (List String)) :
    ∃ A B, mark_entries_for_update md5 cur prev dfs = A ++ B
      ∧ (∀ p ∈ A, 0 ≤ p.1 ∧
          p.1 = ((entryHashes (hash_func md5 Entry.compiled) prev).indexOf
            (hash_func md5 Entry.compiled p.2) : Int))
      ∧ A.Pairwise (fun p q => p.1 < q.1)
      ∧ (∀ p ∈ B, p.1 = -1)
      ∧ B.Pairwise (fun p q =>
          (entryHashes (hash_func md5 Entry.compiled) cur).indexOf
              (hash_func md5 Entry.compiled p.2)
            < (entryHashes (hash_func md5 Entry.compiled) cur).indexOf
              (hash_func md5 Entry.compiled q.2)) := by
  refine ⟨markExistingPart (hash_func md5 Entry.compiled) cur prev dfs,
    markNewPart (hash_func md5 Entry.compiled) cur prev, rfl, ?_, ?_, ?_, ?_⟩
  · intro p hp
    rcases mem_markExistingPart.mp hp with ⟨h, hh, rfl⟩
    have hfe := (hashLookup_spec (preserving_subset_prev hh)).2.2
    constructor
    · exact Int.natCast_nonneg _
    · simp only
      rw [hfe]
  · unfold markExistingPart
    have hnd : ((preservingEntryHashes (hash_func md5 Entry.compiled) cur prev dfs).map
        (fun h => (((entryHashes (hash_func md5 Entry.compiled) prev).indexOf h),
          hashLookup (hash_func md5 Entry.compiled) prev h))).map Prod.fst
          |>.Nodup := by
      rw [List.map_map]
      refine List.Nodup.map_on ?_ (nodup_preserving _ _ _ _)
      intro x hx y hy hxy
      simp only [Function.comp] at hxy
      exact indexOf_inj_on (preserving_subset_prev hx) (preserving_subset_prev hy) hxy
    have hpl := sortByFst_pairwise_lt _ hnd
    rw [List.pairwise_map]
    exact hpl.imp (fun hab => Int.ofNat_lt.mpr hab)
  · intro p hp
    rcases mem_markNewPart.mp hp with ⟨h, _, rfl⟩
    rfl
  · unfold markNewPart
    have hnd : ((newEntryHashes (hash_func md5 Entry.compiled) cur prev).map
        (fun h => (((entryHashes (hash_func md5 Entry.compiled) cur).indexOf h),
          hashLookup (hash_func md5 Entry.compiled) cur h))).map Prod.fst
          |>.Nodup := by
      rw [List.map_map]
      refine List.Nodup.map_on ?_ (nodup_firstDedup _)
      intro x hx y hy hxy
      simp only [Function.comp] at hxy
      exact indexOf_inj_on (new_subset_cur hx) (new_subset_cur hy) hxy
    have hpl := sortByFst_pairwise_lt _ hnd
    have hkey : ∀ a ∈ sortByFst ((newEntryHashes (hash_func md5 Entry.compiled) cur prev).map
        (fun h => (((entryHashes (hash_func md5 Entry.compiled) cur).indexOf h),
          hashLookup (hash_func md5 Entry.compiled) cur h))),
        (entryHashes (hash_func md5 Entry.compiled) cur).indexOf
          (hash_func md5 Entry.compiled a.2) = a.1 := by
      intro a ha
      rcases List.mem_map.mp (mem_sortByFst.mp ha) with ⟨h, hh, rfl⟩
      simp only
      rw [(hashLookup_spec (new_subset_cur hh)).2.2]
    rw [List.pairwise_map]
    refine List.Pairwise.imp_of_mem ?_ hpl
    intro a b ha hb hab
    simp only
    rw [hkey a ha, hkey b hb]
    exact hab

/-! ## Lemmas about the Index Updater -/

section IndexUpdaterLemmas

variable {V : Type} [DecidableEq V]

theorem processFile_ok_inversion {embed : List String → List V}
    {extract_dates : String → List Int} {hf : Entry → String} {entries : List Entry}
    {user : Nat} {file_type file : String} {acc acc' : UpdateResult V}
    (h : processFile embed extract_dates hf entries user file_type file acc = Except.ok acc') :
    (hashesToProcess acc.store user file_type (fileHashes hf entries file)).length
      = (embed (dataToEmbedForFile hf entries acc.store user file_type file)).length
    ∧ acc' = { store := acc.store ++ newRecordsForFile embed hf entries acc.store user file_type file
               dates := acc.dates
                 ++ newDatesForFile embed extract_dates hf entries acc.store user file_type file
               num_new := acc.num_new
                 + (newRecordsForFile embed hf entries acc.store user file_type file).length
               num_deleted := acc.num_deleted
               embedCalls := acc.embedCalls
                 ++ [dataToEmbedForFile hf entries acc.store user file_type file]
               created := acc.created
                 ++ newRecordsForFile embed hf entries acc.store user file_type file } := by
  unfold processFile at h
  by_cases hc : (hashesToProcess acc.store user file_type (fileHashes hf entries file)).length
      = (embed (dataToEmbedForFile hf entries acc.store user file_type file)).length
  · rw [if_pos hc] at h
    exact ⟨hc, (Except.ok.inj h).symm⟩
  · rw [if_neg hc] at h
    exact absurd h (fun hh => Except.noConfusion hh)

theorem processFile_error_of_mismatch {embed : List String → List V}
    {extract_dates : String → List Int} {hf : Entry → String} {entries : List Entry}
    {user : Nat} {file_type file : String} {acc : UpdateResult V}
    (hmis : (embed (dataToEmbedForFile hf entries acc.store user file_type file)).length
      ≠ (dataToEmbedForFile hf entries acc.store user file_type file).length) :
    processFile embed extract_dates hf entries user file_type file acc
      = Except.error embeddingCountMismatch := by
  unfold processFile
  rw [if_neg]
  intro hc
  apply hmis
  rw [← hc]
  unfold dataToEmbedForFile
  rw [List.length_map]

theorem dataToEmbedForFile_length {hf : Entry → String}
    {entries : List Entry} {store : List (EmbeddingRecord V)} {user : Nat}
    {file_type file : String} :
    (dataToEmbedForFile hf entries store user file_type file).length
      = (hashesToProcess store user file_type (fileHashes hf entries file)).length := by
  unfold dataToEmbedForFile
  rw [List.length_map]

end IndexUpdaterLemmas

/-- Claim C6 (confirmed): if the embedding model returns a vector sequence
whose length differs from the number of texts submitted for the first file,
`update_embeddings` fails the `assert num_items == len(embeddings)` check and
aborts with an error (the propagating `AssertionError`) before persisting any
record from those vectors — the mismatch is never handled as a recoverable
error. -/
theorem embed_mismatch_fatal_C6 {V : Type} [DecidableEq V]
    (embed : List String → List V) (extract_dates : String → List Int)
    (md5 : String → String) (entries : List Entry) (file_type : String)
    (dfs : Option (List String)) (user : Nat)
    (store : List (EmbeddingRecord V)) (dates : List (Int × EmbeddingRecord V))
    (f0 : String) (rest : List String)
    (hfiles : filesOf entries = f0 :: rest)
    (hmis : (embed (dataToEmbedForFile (hash_func md5 Entry.compiled) entries store user
        file_type f0)).length
      ≠ (dataToEmbedForFile (hash_func md5 Entry.compiled) entries store user
        file_type f0).length) :
    update_embeddings embed extract_dates md5 entries file_type dfs user false store dates
      = Except.error embeddingCountMismatch := by
  unfold update_embeddings
  rw [hfiles]
  simp only [if_neg, Bool.false_eq_true, if_false, processFiles]
  rw [processFile_error_of_mismatch hmis]

/-- Witness for `embed_mismatch_fatal_C6` at a concrete input: a model that
always returns one vector too many trips the assertion. -/
theorem embed_mismatch_fatal_C6_witness :
    update_embeddings (fun l => List.replicate (l.length + 1) (0 : Nat)) (fun _ => [])
        id [{ raw := "r", compiled := "a", heading := "h", file := "f", corpus_id := 0 }]
        ("org") none 0 false [] []
      = Except.error embeddingCountMismatch :=
  embed_mismatch_fatal_C6 _ _ id _ ("org") none 0 [] [] ("f") [] (by decide)
    (by decide)

/-- Claim C4 (counterexample): deletion isolation fails on a spec-permitted
store.  The same hash may sit under two content types (uniqueness is only per
`(owner, content_type, content_hash)`): with hash "x" stored under file A as
content type "org" and under file B as content type "md", the stale-hash pass
run over file A (no current entries for A, so "x" is stale there) deletes by
owner and hash only — `delete_embedding_by_hash` receives neither a file path
nor a content type — and so removes file B's record too, leaving the store
empty. -/
theorem deletion_isolation_counterexample_C4 :
    (staleFile (hash_func id Entry.compiled) [] 0 ("A")
        { store := [
            { user := 0, embeddings := (1 : Nat), raw := "ra", compiled := "x",
              heading := "", file_path := "A", file_type := "org",
              hashed_value := "x", corpus_id := 0 },
            { user := 0, embeddings := 2, raw := "rb", compiled := "x",
              heading := "", file_path := "B", file_type := "md",
              hashed_value := "x", corpus_id := 1 }],
          dates := [], num_new := 0, num_deleted := 0, embedCalls := [],
          created := [] }).store = []
    ∧ ({ user := 0, embeddings := (2 : Nat), raw := "rb", compiled := "x",
         heading := "", file_path := "B", file_type := "md",
         hashed_value := "x", corpus_id := 1 } : EmbeddingRecord Nat)
      ∈ [({ user := 0, embeddings := (1 : Nat), raw := "ra", compiled := "x",
            heading := "", file_path := "A", file_type := "org",
            hashed_value := "x", corpus_id := 0 } : EmbeddingRecord Nat),
          { user := 0, embeddings := 2, raw := "rb", compiled := "x",
            heading := "", file_path := "B", file_type := "md",
            hashed_value := "x", corpus_id := 1 }]
    ∧ ("B" : String) ≠ ("A" : String) := by
  refine ⟨?_, ?_, ?_⟩ <;> decide

/-- Claim C4 (amended): the stale-hash deletion pass run over file A never
removes a record whose `file_path` is a different file B, provided the owner's
records carry pairwise-distinct hashes — which the spec's
`(owner, content_type, content_hash)` uniqueness guarantees within a single
content type, but not across content types (the counterexample above).  The
hash-scoped delete adapter receives no file or content type, so distinctness
of the owner's hashes is what isolates files. -/
theorem deletion_isolation_C4 {V : Type} [DecidableEq V] (hf : Entry → String)
    (entries : List Entry) (user : Nat) (fileA : String) (acc : UpdateResult V)
    (huniq : ((acc.store.filter (fun r => r.user = user)).map
      (fun r => r.hashed_value)).Nodup) :
    ∀ r ∈ acc.store, r.file_path ≠ fileA →
      r ∈ (staleFile hf entries user fileA acc).store := by
  intro r hr hrp
  simp only [staleFile]
  unfold delete_embedding_by_hash
  rw [List.mem_filter]
  refine ⟨hr, ?_⟩
  apply decide_eq_true
  rintro ⟨hu, hmem⟩
  have hmem2 := (List.mem_filter.mp hmem).1
  have hmem3 := mem_firstDedup.mp hmem2
  unfold get_existing_entry_hashes_by_file at hmem3
  rcases List.mem_map.mp hmem3 with ⟨r2, hr2, hh2⟩
  rcases List.mem_filter.mp hr2 with ⟨hr2s, hr2p⟩
  have hp2 := of_decide_eq_true hr2p
  have hrl : r ∈ acc.store.filter (fun r => r.user = user) :=
    List.mem_filter.mpr ⟨hr, decide_eq_true hu⟩
  have hr2l : r2 ∈ acc.store.filter (fun r => r.user = user) :=
    List.mem_filter.mpr ⟨hr2s, decide_eq_true hp2.1⟩
  have heq : r = r2 := List.inj_on_of_nodup_map huniq hrl hr2l (by rw [hh2])
  rw [heq] at hrp
  exact hrp hp2.2

/-- Witness for `deletion_isolation_C4` at a concrete input: file A's stale
pass (file A has no current entries here, so its record is stale) keeps the
record of file B. -/
theorem deletion_isolation_C4_witness :
    ({ user := 0, embeddings := 6, raw := "rb", compiled := "b",
       heading := "", file_path := "B", file_type := "org",
       hashed_value := "b", corpus_id := 1 } : EmbeddingRecord Nat)
      ∈ (staleFile (hash_func id Entry.compiled) [] 0 ("A")
          { store := [
              { user := 0, embeddings := 5, raw := "ra", compiled := "a",
                heading := "", file_path := "A", file_type := "org",
                hashed_value := "a", corpus_id := 0 },
              { user := 0, embeddings := 6, raw := "rb", compiled := "b",
                heading := "", file_path := "B", file_type := "org",
                hashed_value := "b", corpus_id := 1 }],
            dates := [], num_new := 0, num_deleted := 0, embedCalls := [],
            created := [] }).store :=
  deletion_isolation_C4 (hash_func id Entry.compiled) [] 0 ("A")
    { store := [
        { user := 0, embeddings := 5, raw := "ra", compiled := "a",
          heading := "", file_path := "A", file_type := "org",
          hashed_value := "a", corpus_id := 0 },
        { user := 0, embeddings := 6, raw := "rb", compiled := "b",
          heading := "", file_path := "B", file_type := "org",
          hashed_value := "b", corpus_id := 1 }],
      dates := [], num_new := 0, num_deleted := 0, embedCalls := [], created := [] }
    (by decide)
    { user := 0, embeddings := 6, raw := "rb", compiled := "b",
      heading := "", file_path := "B", file_type := "org",
      hashed_value := "b", corpus_id := 1 }
    (by decide) (by decide)

section GhostLemmas

variable {V : Type} [DecidableEq V]
variable {embed : List String → List V} {extract_dates : String → List Int}
variable {hf : Entry → String} {entries : List Entry} {user : Nat}
variable {file_type : String}

theorem staleFile_ghost (f : String) (acc : UpdateResult V) :
    (staleFile hf entries user f acc).embedCalls = acc.embedCalls ∧
    (staleFile hf entries user f acc).created = acc.created ∧
    (staleFile hf entries user f acc).num_new = acc.num_new :=
  ⟨rfl, rfl, rfl⟩

theorem stalePass_ghost (fs : List String) (acc : UpdateResult V) :
    (stalePass hf entries user fs acc).embedCalls = acc.embedCalls ∧
    (stalePass hf entries user fs acc).created = acc.created ∧
    (stalePass hf entries user fs acc).num_new = acc.num_new := by
  induction fs generalizing acc with
  | nil => exact ⟨rfl, rfl, rfl⟩
  | cons f fs ih =>
    simp only [stalePass]
    exact ih (staleFile hf entries user f acc)

theorem deletionPass_ghost (ps : List String) (acc : UpdateResult V) :
    (deletionPass user ps acc).embedCalls = acc.embedCalls ∧
    (deletionPass user ps acc).created = acc.created ∧
    (deletionPass user ps acc).num_new = acc.num_new := by
  induction ps generalizing acc with
  | nil => exact ⟨rfl, rfl, rfl⟩
  | cons p ps ih =>
    simp only [deletionPass]
    exact ih _

theorem processFiles_ok_embedCalls {fs : List String} {acc acc' : UpdateResult V}
    (h : processFiles embed extract_dates hf entries user file_type fs acc = Except.ok acc') :
    acc'.embedCalls.length = acc.embedCalls.length + fs.length := by
  induction fs generalizing acc with
  | nil =>
    simp only [processFiles] at h
    rw [← Except.ok.inj h]
    simp
  | cons f fs ih =>
    simp only [processFiles] at h
    split at h
    · exact Except.noConfusion h
    · rename_i acc1 heq
      have h1 := ih h
      have h2 := (processFile_ok_inversion heq).2
      subst h2
      simp only [List.length_append, List.length_cons, List.length_nil] at h1 ⊢
      omega

end GhostLemmas

set_option maxRecDepth 8000 in
/-- Claim C5 (counterexample): with 201 distinct-hash entries in one file and
an empty store, `update_embeddings` calls the embedding model exactly once,
with all 201 texts in that single call — not in batches of at most 200 texts;
the `min(200, num_items)` batching applies only to persisting the records. -/
theorem embed_batching_counterexample_C5 :
    (update_embeddings (fun l => l.map (fun _ => (0 : Nat))) (fun _ => []) id
        ((List.range 201).map (fun i =>
          { raw := "", compiled := Nat.repr i, heading := "", file := "f", corpus_id := 0 }))
        ("org") none 0 false [] []).map (fun r => r.embedCalls.map (fun c => c.length))
      = Except.ok [201]
    ∧ ¬ ((201 : Nat) ≤ 200) := by
  constructor
  · decide
  · decide

/-- Claim C5 (amended): `update_embeddings` calls the embedding-model
collaborator exactly once per current file, passing all of that file's
to-embed texts in that single call (with no 200-text cap); the
`min(200, num_items)` batches govern only how the resulting records are
persisted via `bulk_create`. -/
theorem embed_batching_amended_C5 {V : Type} [DecidableEq V]
    (embed : List String → List V) (extract_dates : String → List Int)
    (md5 : String → String) (entries : List Entry) (file_type : String)
    (dfs : Option (List String)) (user : Nat) (regen : Bool)
    (store : List (EmbeddingRecord V)) (dates : List (Int × EmbeddingRecord V))
    (r : UpdateResult V)
    (hok : update_embeddings embed extract_dates md5 entries file_type dfs user regen
      store dates = Except.ok r) :
    r.embedCalls.length = (filesOf entries).length := by
  simp only [update_embeddings] at hok
  split at hok
  · exact Except.noConfusion hok
  · rename_i acc1 heq
    have hlen := processFiles_ok_embedCalls heq
    simp only [List.length_nil, Nat.zero_add] at hlen
    have hr := Except.ok.inj hok
    cases dfs with
    | none =>
      simp only at hr
      rw [← hr]
      rw [(stalePass_ghost _ _).1]
      exact hlen
    | some dfs0 =>
      simp only at hr
      rw [← hr]
      rw [(deletionPass_ghost _ _).1, (stalePass_ghost _ _).1]
      exact hlen

/-- Witness for `embed_batching_amended_C5` at a concrete input. -/
theorem embed_batching_amended_C5_witness :
    ({ store := [{ user := 0, embeddings := 0, raw := "r", compiled := "a",
                   heading := "h", file_path := "f", file_type := "org",
                   hashed_value := "a", corpus_id := 3 }],
       dates := [], num_new := 1, num_deleted := 0, embedCalls := [[("a" : String)]],
       created := [{ user := 0, embeddings := 0, raw := "r", compiled := "a",
                     heading := "h", file_path := "f", file_type := "org",
                     hashed_value := "a", corpus_id := 3 }] } :
        UpdateResult Nat).embedCalls.length
      = (filesOf [{ raw := "r", compiled := "a", heading := "h", file := "f",
                    corpus_id := 3 }]).length :=
  embed_batching_amended_C5 (fun l => l.map (fun _ => 0)) (fun _ => []) id
    [{ raw := "r", compiled := "a", heading := "h", file := "f", corpus_id := 3 }]
    ("org") none 0 false [] [] _ (by decide)

section CreationLemmas

variable {V : Type} [DecidableEq V]
variable {embed : List String → List V} {extract_dates : String → List Int}
variable {hf : Entry → String} {entries : List Entry} {user : Nat}
variable {file_type : String}

/-- Presence of a record for a hash, scoped by owner and content type (what the
creation pass's existence check tests). -/
def HashPresent (store : List (EmbeddingRecord V)) (user : Nat) (file_type : String)
    (h : String) : Prop :=
  ∃ r ∈ store, r.user = user ∧ r.file_type = file_type ∧ r.hashed_value = h

theorem fileHashes_subset_map {f h : String}
    (hm : h ∈ fileHashes hf entries f) : h ∈ entries.map hf := by
  unfold fileHashes at hm
  rcases List.mem_map.mp (mem_firstDedup.mp hm) with ⟨e, he, hfe⟩
  exact List.mem_map.mpr ⟨e, (List.mem_filter.mp he).1, hfe⟩

theorem hashesToProcess_subset {store : List (EmbeddingRecord V)} {f h : String}
    (hm : h ∈ hashesToProcess store user file_type (fileHashes hf entries f)) :
    h ∈ fileHashes hf entries f :=
  (List.mem_filter.mp hm).1

theorem hashesToProcess_nodup (store : List (EmbeddingRecord V)) (f : String) :
    (hashesToProcess store user file_type (fileHashes hf entries f)).Nodup :=
  List.Nodup.filter _ (nodup_firstDedup _)

theorem hashesToProcess_not_present {store : List (EmbeddingRecord V)} {f h : String}
    (hm : h ∈ hashesToProcess store user file_type (fileHashes hf entries f)) :
    ¬ HashPresent store user file_type h := by
  rintro ⟨r, hr, hu, ht, hh⟩
  have hnm := (List.mem_filter.mp hm).2
  have hmem := (List.mem_filter.mp hm).1
  have : h ∈ existingHashesForFile store user file_type (fileHashes hf entries f) := by
    unfold existingHashesForFile storeFilterByHashes
    refine List.mem_map.mpr ⟨r, ?_, hh⟩
    refine List.mem_filter.mpr ⟨hr, decide_eq_true ⟨hu, ?_, ht⟩⟩
    rw [hh]
    exact hmem
  rw [decide_eq_true_eq] at hnm
  exact hnm this

theorem present_of_existing {store : List (EmbeddingRecord V)} {hs : List String} {h : String}
    (hm : h ∈ existingHashesForFile store user file_type hs) :
    HashPresent store user file_type h := by
  unfold existingHashesForFile storeFilterByHashes at hm
  rcases List.mem_map.mp hm with ⟨r, hr, hh⟩
  rcases List.mem_filter.mp hr with ⟨hrs, hp⟩
  have hp2 := of_decide_eq_true hp
  exact ⟨r, hrs, hp2.1, hp2.2.2, hh⟩

theorem newRecordsForFile_eq {store : List (EmbeddingRecord V)} {f : String} :
    newRecordsForFile embed hf entries store user file_type f
      = recordsOfBatch hf entries user file_type
          ((hashesToProcess store user file_type (fileHashes hf entries f)).zip
            (embed (dataToEmbedForFile hf entries store user file_type f))) := by
  unfold newRecordsForFile batchesForFile recordsOfBatch
  rw [List.flatMap_def, ← List.map_flatten, flatten_listChunks]

theorem newRecordsForFile_hashes {store : List (EmbeddingRecord V)} {f : String}
    (hlen : (hashesToProcess store user file_type (fileHashes hf entries f)).length
      = (embed (dataToEmbedForFile hf entries store user file_type f)).length) :
    (newRecordsForFile embed hf entries store user file_type f).map
        (fun r => r.hashed_value)
      = hashesToProcess store user file_type (fileHashes hf entries f) := by
  rw [newRecordsForFile_eq]
  unfold recordsOfBatch
  rw [List.map_map]
  have : ((fun r : EmbeddingRecord V => r.hashed_value)
      ∘ fun p : String × V => recordOfHash hf entries user file_type p.1 p.2)
      = Prod.fst := rfl
  rw [this]
  exact List.map_fst_zip _ _ (Nat.le_of_eq hlen)

theorem mem_newRecordsForFile {store : List (EmbeddingRecord V)} {f : String}
    {rec : EmbeddingRecord V}
    (hm : rec ∈ newRecordsForFile embed hf entries store user file_type f) :
    ∃ h v, h ∈ hashesToProcess store user file_type (fileHashes hf entries f)
      ∧ rec = recordOfHash hf entries user file_type h v := by
  rw [newRecordsForFile_eq] at hm
  unfold recordsOfBatch at hm
  rcases List.mem_map.mp hm with ⟨p, hp, hrec⟩
  exact ⟨p.1, p.2, (List.of_mem_zip hp).1, hrec.symm⟩

/-- Fields of a created record come from the last current entry with its hash
(the model of `hash_to_current_entries[hashed_val]`, where the Python dict
keeps the last zip pair per key), with the heading truncated to 1000
characters. -/
def CreatedFromLastEntry (hf : Entry → String) (entries : List Entry)
    (rec : EmbeddingRecord V) : Prop :=
  ∃ e : Entry,
    (entries.filter (fun x => hf x = rec.hashed_value)).getLast? = some e ∧
    rec.raw = e.raw ∧ rec.compiled = e.compiled ∧
    rec.heading = strTake e.heading 1000 ∧ rec.file_path = e.file ∧
    rec.corpus_id = e.corpus_id

theorem recordOfHash_created_from {h : String} {v : V}
    (hm : h ∈ entries.map hf) :
    CreatedFromLastEntry hf entries (recordOfHash hf entries user file_type h v) := by
  rcases hashLookup_spec hm with ⟨hlast, _, _⟩
  exact ⟨hashLookup hf entries h, hlast, rfl, rfl, rfl, rfl, rfl⟩

end CreationLemmas

section CreatedInvariant

variable {V : Type} [DecidableEq V]
variable {embed : List String → List V} {extract_dates : String → List Int}
variable {hf : Entry → String} {entries : List Entry} {user : Nat}
variable {file_type : String}

/-- Creation-pass invariant for the ghost `created` list: created hashes are
pairwise distinct, and every created record is owner/content-type scoped,
backed by a store record with its hash, and built from the last current entry
with its hash. -/
def CreatedInv (hf : Entry → String) (entries : List Entry) (user : Nat)
    (file_type : String) (acc : UpdateResult V) : Prop :=
  (acc.created.map (fun r => r.hashed_value)).Nodup ∧
  ∀ rec ∈ acc.created, rec.user = user ∧ rec.file_type = file_type ∧
    HashPresent acc.store user file_type rec.hashed_value ∧
    CreatedFromLastEntry hf entries rec

theorem processFile_created_inv {f : String} {acc acc' : UpdateResult V}
    (heq : processFile embed extract_dates hf entries user file_type f acc = Except.ok acc')
    (hinv : CreatedInv hf entries user file_type acc) :
    CreatedInv hf entries user file_type acc' := by
  rcases processFile_ok_inversion heq with ⟨hlen, rfl⟩
  rcases hinv with ⟨hnd, hmem⟩
  have hhashes := newRecordsForFile_hashes hlen
  constructor
  · simp only [List.map_append]
    refine List.Nodup.append hnd ?_ ?_
    · rw [hhashes]
      exact hashesToProcess_nodup _ _
    · intro h1 hold hnew
      rw [hhashes] at hnew
      rcases List.mem_map.mp hold with ⟨rec, hrec, hh⟩
      have hpres := (hmem rec hrec).2.2.1
      rw [hh] at hpres
      exact hashesToProcess_not_present hnew hpres
  · intro rec hrec
    simp only [List.mem_append] at hrec
    rcases hrec with hrec | hrec
    · rcases hmem rec hrec with ⟨hu, ht, ⟨r2, hr2, hp2⟩, hcf⟩
      exact ⟨hu, ht, ⟨r2, List.mem_append.mpr (Or.inl hr2), hp2⟩, hcf⟩
    · rcases mem_newRecordsForFile hrec with ⟨h, v, hh, rfl⟩
      have hmap : h ∈ entries.map hf :=
        fileHashes_subset_map (hashesToProcess_subset hh)
      refine ⟨rfl, rfl, ?_, recordOfHash_created_from hmap⟩
      exact ⟨recordOfHash hf entries user file_type h v,
        List.mem_append.mpr (Or.inr hrec), rfl, rfl, rfl⟩

theorem processFiles_created_inv {fs : List String} {acc acc' : UpdateResult V}
    (h : processFiles embed extract_dates hf entries user file_type fs acc = Except.ok acc')
    (hinv : CreatedInv hf entries user file_type acc) :
    CreatedInv hf entries user file_type acc' := by
  induction fs generalizing acc with
  | nil =>
    simp only [processFiles] at h
    rw [← Except.ok.inj h]
    exact hinv
  | cons f fs ih =>
    simp only [processFiles] at h
    split at h
    · exact Except.noConfusion h
    · rename_i acc1 heq
      exact ih h (processFile_created_inv heq hinv)

end CreatedInvariant

/-- Claim C10 (confirmed): in one run of `update_embeddings`, at most one
record is created per hash — even when current entries of different files
share a hash, because `hash_to_current_entries` keeps one entry per hash and
the existence check filters by owner, content type and hash but not by file —
and every created record's `raw`, `compiled`, `heading` (truncated to 1000
characters) and `file_path` come from the last entry with that hash in the
input list. -/
theorem cross_file_dedup_C10 {V : Type} [DecidableEq V]
    (embed : List String → List V) (extract_dates : String → List Int)
    (md5 : String → String) (entries : List Entry) (file_type : String)
    (dfs : Option (List String)) (user : Nat) (regen : Bool)
    (store : List (EmbeddingRecord V)) (dates : List (Int × EmbeddingRecord V))
    (r : UpdateResult V)
    (hok : update_embeddings embed extract_dates md5 entries file_type dfs user regen
      store dates = Except.ok r) :
    (r.created.map (fun rec => rec.hashed_value)).Nodup ∧
    ∀ rec ∈ r.created, CreatedFromLastEntry (hash_func md5 Entry.compiled) entries rec := by
  simp only [update_embeddings] at hok
  split at hok
  · exact Except.noConfusion hok
  · rename_i acc1 heq
    have hinv1 := processFiles_created_inv heq
      (⟨by simp, fun rec hrec => absurd hrec (List.not_mem_nil rec)⟩)
    rcases hinv1 with ⟨hnd, hmem⟩
    have hr := Except.ok.inj hok
    cases dfs with
    | none =>
      simp only at hr
      constructor
      · rw [← hr, (stalePass_ghost _ _).2.1]
        exact hnd
      · intro rec hrec
        rw [← hr, (stalePass_ghost _ _).2.1] at hrec
        exact (hmem rec hrec).2.2.2
    | some dfs0 =>
      simp only at hr
      constructor
      · rw [← hr, (deletionPass_ghost _ _).2.1, (stalePass_ghost _ _).2.1]
        exact hnd
      · intro rec hrec
        rw [← hr, (deletionPass_ghost _ _).2.1, (stalePass_ghost _ _).2.1] at hrec
        exact (hmem rec hrec).2.2.2

/-- Witness for `cross_file_dedup_C10` at a concrete input: two entries with
identical compiled text in files f and g yield a single created record whose
fields come from the second (last) entry, including `file_path = "g"`. -/
theorem cross_file_dedup_C10_witness :
    (({ store := [
          { user := 0, embeddings := 0, raw := "r2", compiled := "x",
            heading := "h2", file_path := "g", file_type := "org",
            hashed_value := "x", corpus_id := 5 }],
        dates := [], num_new := 1, num_deleted := 0,
        embedCalls := [[("x" : String)], []],
        created := [
          { user := 0, embeddings := 0, raw := "r2", compiled := "x",
            heading := "h2", file_path := "g", file_type := "org",
            hashed_value := "x", corpus_id := 5 }] } :
          UpdateResult Nat).created.map (fun rec => rec.hashed_value)).Nodup ∧
    ∀ rec ∈ ({ store := [
                 { user := 0, embeddings := 0, raw := "r2", compiled := "x",
                   heading := "h2", file_path := "g", file_type := "org",
                   hashed_value := "x", corpus_id := 5 }],
               dates := [], num_new := 1, num_deleted := 0,
               embedCalls := [[("x" : String)], []],
               created := [
                 { user := 0, embeddings := 0, raw := "r2", compiled := "x",
                   heading := "h2", file_path := "g", file_type := "org",
                   hashed_value := "x", corpus_id := 5 }] } :
               UpdateResult Nat).created,
      CreatedFromLastEntry (hash_func id Entry.compiled)
        [{ raw := "r1", compiled := "x", heading := "h1", file := "f", corpus_id := 4 },
         { raw := "r2", compiled := "x", heading := "h2", file := "g", corpus_id := 5 }]
        rec :=
  cross_file_dedup_C10 (fun l => l.map (fun _ => (0 : Nat))) (fun _ => []) id
    [{ raw := "r1", compiled := "x", heading := "h1", file := "f", corpus_id := 4 },
     { raw := "r2", compiled := "x", heading := "h2", file := "g", corpus_id := 5 }]
    ("org") none 0 false [] [] _ (by decide)

section IdempotenceLemmas

variable {V : Type} [DecidableEq V]
variable {embed : List String → List V} {extract_dates : String → List Int}
variable {hf : Entry → String} {entries : List Entry} {user : Nat}
variable {file_type : String}

/-- Store compatibility with the current entries: every record of the owner
whose file path is among the current files carries a hash in that file's
current hash set.  Runs started from such a store keep it; it makes the stale
pass a no-op and is the precondition of the amended idempotence claim. -/
def UserCompat (hf : Entry → String) (entries : List Entry) (user : Nat)
    (store : List (EmbeddingRecord V)) : Prop :=
  ∀ r ∈ store, r.user = user → r.file_path ∈ entries.map (fun e => e.file) →
    r.hashed_value ∈ fileHashes hf entries r.file_path

theorem filesOf_subset {f : String} (hm : f ∈ filesOf entries) :
    f ∈ entries.map (fun e => e.file) :=
  mem_firstDedup.mp hm

theorem newRecords_compat {store : List (EmbeddingRecord V)} {f : String}
    {rec : EmbeddingRecord V}
    (hm : rec ∈ newRecordsForFile embed hf entries store user file_type f) :
    rec.user = user ∧ rec.file_type = file_type ∧
    rec.hashed_value ∈ fileHashes hf entries rec.file_path := by
  rcases mem_newRecordsForFile hm with ⟨h, v, hh, rfl⟩
  refine ⟨rfl, rfl, ?_⟩
  have hmap := fileHashes_subset_map (hashesToProcess_subset hh)
  rcases hashLookup_spec hmap with ⟨_, hmem, hfe⟩
  show h ∈ fileHashes hf entries (hashLookup hf entries h).file
  unfold fileHashes
  rw [mem_firstDedup]
  refine List.mem_map.mpr ⟨hashLookup hf entries h, ?_, hfe⟩
  exact List.mem_filter.mpr ⟨hmem, decide_eq_true rfl⟩

theorem processFile_compat {f : String} {acc acc' : UpdateResult V}
    (heq : processFile embed extract_dates hf entries user file_type f acc = Except.ok acc')
    (hc : UserCompat hf entries user acc.store) :
    UserCompat hf entries user acc'.store := by
  rcases processFile_ok_inversion heq with ⟨_, rfl⟩
  intro r hr hu hp
  rcases List.mem_append.mp hr with hr | hr
  · exact hc r hr hu hp
  · exact (newRecords_compat hr).2.2

theorem processFile_present {f : String} {acc acc' : UpdateResult V}
    (heq : processFile embed extract_dates hf entries user file_type f acc = Except.ok acc') :
    (∀ h ∈ fileHashes hf entries f, HashPresent acc'.store user file_type h)
    ∧ (∀ h, HashPresent acc.store user file_type h
        → HashPresent acc'.store user file_type h) := by
  rcases processFile_ok_inversion heq with ⟨hlen, rfl⟩
  constructor
  · intro h hh
    by_cases hex : h ∈ existingHashesForFile acc.store user file_type (fileHashes hf entries f)
    · rcases present_of_existing hex with ⟨r, hr, hp⟩
      exact ⟨r, List.mem_append.mpr (Or.inl hr), hp⟩
    · have htp : h ∈ hashesToProcess acc.store user file_type (fileHashes hf entries f) :=
        List.mem_filter.mpr ⟨hh, decide_eq_true hex⟩
      have hmaps := newRecordsForFile_hashes hlen
      rw [← hmaps] at htp
      rcases List.mem_map.mp htp with ⟨rec, hrec, hrh⟩
      rcases newRecords_compat hrec with ⟨hu2, ht2, _⟩
      exact ⟨rec, List.mem_append.mpr (Or.inr hrec), hu2, ht2, hrh⟩
  · rintro h ⟨r, hr, hp⟩
    exact ⟨r, List.mem_append.mpr (Or.inl hr), hp⟩

theorem processFile_total (hembed : ∀ l, (embed l).length = l.length)
    (f : String) (acc : UpdateResult V) :
    ∃ acc', processFile embed extract_dates hf entries user file_type f acc
      = Except.ok acc' := by
  have hcond : (hashesToProcess acc.store user file_type (fileHashes hf entries f)).length
      = (embed (dataToEmbedForFile hf entries acc.store user file_type f)).length := by
    rw [hembed, dataToEmbedForFile_length]
  unfold processFile
  rw [if_pos hcond]
  exact ⟨_, rfl⟩

theorem processFiles_run1 (hembed : ∀ l, (embed l).length = l.length)
    (fs : List String) (acc : UpdateResult V)
    (hc : UserCompat hf entries user acc.store) :
    ∃ acc', processFiles embed extract_dates hf entries user file_type fs acc
        = Except.ok acc'
      ∧ UserCompat hf entries user acc'.store
      ∧ (∀ f ∈ fs, ∀ h ∈ fileHashes hf entries f,
          HashPresent acc'.store user file_type h)
      ∧ (∀ h, HashPresent acc.store user file_type h
          → HashPresent acc'.store user file_type h)
      ∧ acc'.num_deleted = acc.num_deleted := by
  induction fs generalizing acc with
  | nil => exact ⟨acc, rfl, hc, by simp, fun h hp => hp, rfl⟩
  | cons f fs ih =>
    rcases @processFile_total V _ embed extract_dates hf entries user file_type hembed f acc
      with ⟨acc1, heq⟩
    rcases ih acc1 (processFile_compat heq hc) with ⟨acc', heq', hc', hpres', hmono', hdel'⟩
    rcases processFile_present heq with ⟨hpf, hpmono⟩
    have hd1 : acc1.num_deleted = acc.num_deleted := by
      rw [(processFile_ok_inversion heq).2]
    refine ⟨acc', ?_, hc', ?_, ?_, ?_⟩
    · simp only [processFiles]
      rw [heq]
      exact heq'
    · intro f2 hf2 h hh
      rcases List.mem_cons.mp hf2 with rfl | hf2
      · exact hmono' h (hpf h hh)
      · exact hpres' f2 hf2 h hh
    · exact fun h hp => hmono' h (hpmono h hp)
    · rw [hdel', hd1]

theorem staleFile_noop {f : String} {acc : UpdateResult V}
    (hc : UserCompat hf entries user acc.store)
    (hfm : f ∈ entries.map (fun e => e.file)) :
    (staleFile hf entries user f acc).store = acc.store
    ∧ (staleFile hf entries user f acc).num_new = acc.num_new
    ∧ (staleFile hf entries user f acc).num_deleted = acc.num_deleted := by
  have htd : (firstDedup (get_existing_entry_hashes_by_file acc.store user f)).filter
      (fun h => h ∉ fileHashes hf entries f) = [] := by
    rw [List.filter_eq_nil_iff]
    intro h hh
    have hh2 := mem_firstDedup.mp hh
    unfold get_existing_entry_hashes_by_file at hh2
    rcases List.mem_map.mp hh2 with ⟨r, hr, hrh⟩
    rcases List.mem_filter.mp hr with ⟨hrs, hp⟩
    have hp2 := of_decide_eq_true hp
    have hin := hc r hrs hp2.1 (by rw [hp2.2]; exact hfm)
    rw [hp2.2] at hin
    rw [← hrh]
    simp [hin]
  have hdel : delete_embedding_by_hash acc.store user
      ((firstDedup (get_existing_entry_hashes_by_file acc.store user f)).filter
        (fun h => h ∉ fileHashes hf entries f)) = acc.store := by
    rw [htd]
    unfold delete_embedding_by_hash
    rw [List.filter_eq_self]
    intro r _
    simp
  refine ⟨?_, rfl, ?_⟩
  · simp only [staleFile]
    exact hdel
  · simp only [staleFile, htd]
    simp

theorem stalePass_noop {fs : List String} {acc : UpdateResult V}
    (hc : UserCompat hf entries user acc.store)
    (hsub : ∀ f ∈ fs, f ∈ entries.map (fun e => e.file)) :
    (stalePass hf entries user fs acc).store = acc.store
    ∧ (stalePass hf entries user fs acc).num_new = acc.num_new
    ∧ (stalePass hf entries user fs acc).num_deleted = acc.num_deleted := by
  induction fs generalizing acc with
  | nil => exact ⟨rfl, rfl, rfl⟩
  | cons f fs ih =>
    have hn := staleFile_noop hc (hsub f (List.mem_cons_self f fs))
    have hc1 : UserCompat hf entries user (staleFile hf entries user f acc).store := by
      rw [hn.1]
      exact hc
    have hrest := ih hc1 (fun f2 h2 => hsub f2 (List.mem_cons_of_mem f h2))
    simp only [stalePass]
    exact ⟨by rw [hrest.1, hn.1], by rw [hrest.2.1, hn.2.1], by rw [hrest.2.2, hn.2.2]⟩

theorem processFiles_noop (hembed : ∀ l, (embed l).length = l.length)
    (fs : List String) (acc : UpdateResult V)
    (hpres : ∀ f ∈ fs, ∀ h ∈ fileHashes hf entries f,
      HashPresent acc.store user file_type h) :
    ∃ acc', processFiles embed extract_dates hf entries user file_type fs acc
        = Except.ok acc'
      ∧ acc'.store = acc.store ∧ acc'.num_new = acc.num_new
      ∧ acc'.num_deleted = acc.num_deleted := by
  induction fs generalizing acc with
  | nil => exact ⟨acc, rfl, rfl, rfl, rfl⟩
  | cons f fs ih =>
    have htp : hashesToProcess acc.store user file_type (fileHashes hf entries f) = [] := by
      unfold hashesToProcess
      rw [List.filter_eq_nil_iff]
      intro h hh
      rcases hpres f (List.mem_cons_self f fs) h hh with ⟨r, hr, hu, ht, hrh⟩
      have hex : h ∈ existingHashesForFile acc.store user file_type
          (fileHashes hf entries f) := by
        unfold existingHashesForFile storeFilterByHashes
        refine List.mem_map.mpr ⟨r, List.mem_filter.mpr ⟨hr, decide_eq_true ⟨hu, ?_, ht⟩⟩, hrh⟩
        rw [hrh]
        exact hh
      simp [hex]
    rcases @processFile_total V _ embed extract_dates hf entries user file_type hembed f acc
      with ⟨acc1, heq⟩
    rcases processFile_ok_inversion heq with ⟨hlen, hacc1⟩
    have hN : newRecordsForFile embed hf entries acc.store user file_type f = [] := by
      rw [newRecordsForFile_eq, htp]
      rfl
    have hst : acc1.store = acc.store := by
      rw [hacc1]
      simp [hN]
    have hnn : acc1.num_new = acc.num_new := by
      rw [hacc1]
      simp [hN]
    have hnd : acc1.num_deleted = acc.num_deleted := by
      rw [hacc1]
    have hpres1 : ∀ f2 ∈ fs, ∀ h ∈ fileHashes hf entries f2,
        HashPresent acc1.store user file_type h := by
      rw [hst]
      exact fun f2 h2 h hh => hpres f2 (List.mem_cons_of_mem f h2) h hh
    rcases ih acc1 hpres1 with ⟨acc', heq', h1, h2, h3⟩
    refine ⟨acc', ?_, by rw [h1, hst], by rw [h2, hnn], by rw [h3, hnd]⟩
    simp only [processFiles]
    rw [heq]
    exact heq'

end IdempotenceLemmas

/-- Claim C1 (counterexample): idempotence fails from a store in which a
current hash sits under the wrong current file.  Store: one record with hash
of "x" under file f.  Current entries: compiled "y" in file f, compiled "x"
in file g.  The first run finds "x" already present (the check ignores files),
creates only "y", then file f's stale pass deletes the "x" record; the second
identical run must re-create "x" and returns `(1, 0)`, not `(0, 0)`. -/
theorem idempotence_counterexample_C1 :
    ((update_embeddings (fun l => l.map (fun _ => (0 : Nat))) (fun _ => []) id
        [{ raw := "r1", compiled := "y", heading := "", file := "f", corpus_id := 0 },
         { raw := "r2", compiled := "x", heading := "", file := "g", corpus_id := 1 }]
        ("org") none 0 false
        [{ user := 0, embeddings := 9, raw := "old", compiled := "x", heading := "",
           file_path := "f", file_type := "org", hashed_value := "x", corpus_id := 7 }]
        []).bind (fun r =>
          update_embeddings (fun l => l.map (fun _ => (0 : Nat))) (fun _ => []) id
            [{ raw := "r1", compiled := "y", heading := "", file := "f", corpus_id := 0 },
             { raw := "r2", compiled := "x", heading := "", file := "g", corpus_id := 1 }]
            ("org") none 0 false r.store r.dates)).map
        (fun r => (r.num_new, r.num_deleted))
      = Except.ok (1, 0)
    ∧ ((1, 0) : Nat × Nat) ≠ (0, 0) := by
  constructor
  · decide
  · decide

/-- Claim C1 (amended): idempotence holds under a store precondition.  If
every record of the owner whose `file_path` is among the current files has its
hash in that file's current hash set (`UserCompat`; in particular any store
with no records for the current files, such as an empty store), and the
embedding model honours its length contract, then after one successful
`update_embeddings` call a second call with the identical entry list, no
`deletion_filenames` and `regenerate=False` creates zero and deletes zero
records. -/
theorem idempotence_amended_C1 {V : Type} [DecidableEq V]
    (embed : List String → List V) (extract_dates : String → List Int)
    (md5 : String → String) (entries : List Entry) (file_type : String) (user : Nat)
    (st : List (EmbeddingRecord V)) (dst : List (Int × EmbeddingRecord V))
    (hembed : ∀ l, (embed l).length = l.length)
    (hcompat : UserCompat (hash_func md5 Entry.compiled) entries user st)
    (r1 : UpdateResult V)
    (h1 : update_embeddings embed extract_dates md5 entries file_type none user false st dst
      = Except.ok r1) :
    ∃ r2, update_embeddings embed extract_dates md5 entries file_type none user false
        r1.store r1.dates = Except.ok r2
      ∧ r2.num_new = 0 ∧ r2.num_deleted = 0 := by
  simp only [update_embeddings, Bool.false_eq_true, if_false] at h1
  split at h1
  · exact Except.noConfusion h1
  · rename_i acc1 heq
    rcases @processFiles_run1 V _ embed extract_dates (hash_func md5 Entry.compiled)
        entries user file_type hembed (filesOf entries)
        { store := st, dates := cascadeDates st dst, num_new := 0, num_deleted := 0,
          embedCalls := [], created := [] } hcompat
      with ⟨acc1x, heqx, hcx, hpresx, _, _⟩
    rw [heqx] at heq
    have haccx : acc1x = acc1 := Except.ok.inj heq
    subst haccx
    have hr1 := Except.ok.inj h1
    have hsn := stalePass_noop hcx (fun f hfm => filesOf_subset hfm)
    have hr1s : r1.store = acc1x.store := by
      rw [← hr1]
      exact hsn.1
    have hpres2 : ∀ f ∈ filesOf entries,
        ∀ h ∈ fileHashes (hash_func md5 Entry.compiled) entries f,
          HashPresent r1.store user file_type h := by
      rw [hr1s]
      exact hpresx
    have hc2 : UserCompat (hash_func md5 Entry.compiled) entries user r1.store := by
      rw [hr1s]
      exact hcx
    rcases @processFiles_noop V _ embed extract_dates (hash_func md5 Entry.compiled)
        entries user file_type hembed (filesOf entries)
        { store := r1.store, dates := cascadeDates r1.store r1.dates, num_new := 0,
          num_deleted := 0, embedCalls := [], created := [] } hpres2
      with ⟨acc2, heq2, hs2, hn2, hd2⟩
    have hc3 : UserCompat (hash_func md5 Entry.compiled) entries user acc2.store := by
      rw [hs2]
      exact hc2
    have hsn2 := stalePass_noop hc3 (fun f hfm => filesOf_subset hfm)
    refine ⟨stalePass (hash_func md5 Entry.compiled) entries user (filesOf entries) acc2,
      ?_, ?_, ?_⟩
    · simp only [update_embeddings, Bool.false_eq_true, if_false]
      rw [heq2]
    · rw [(stalePass_ghost _ _).2.2, hn2]
    · rw [hsn2.2.2, hd2]

/-- Witness for `idempotence_amended_C1` at a concrete input: rerunning over
the store produced by a first run from the empty store yields `(0, 0)`. -/
theorem idempotence_amended_C1_witness :
    ∃ r2, update_embeddings (fun l => l.map (fun _ => (0 : Nat))) (fun _ => []) id
        [{ raw := "r", compiled := "a", heading := "h", file := "f", corpus_id := 3 }]
        ("org") none 0 false
        ({ store := [
             { user := 0, embeddings := 0, raw := "r", compiled := "a",
               heading := "h", file_path := "f", file_type := "org",
               hashed_value := "a", corpus_id := 3 }],
           dates := [], num_new := 1, num_deleted := 0,
           embedCalls := [[("a" : String)]],
           created := [
             { user := 0, embeddings := 0, raw := "r", compiled := "a",
               heading := "h", file_path := "f", file_type := "org",
               hashed_value := "a", corpus_id := 3 }] } : UpdateResult Nat).store
        ({ store := [
             { user := 0, embeddings := 0, raw := "r", compiled := "a",
               heading := "h", file_path := "f", file_type := "org",
               hashed_value := "a", corpus_id := 3 }],
           dates := [], num_new := 1, num_deleted := 0,
           embedCalls := [[("a" : String)]],
           created := [
             { user := 0, embeddings := 0, raw := "r", compiled := "a",
               heading := "h", file_path := "f", file_type := "org",
               hashed_value := "a", corpus_id := 3 }] } : UpdateResult Nat).dates
      = Except.ok r2 ∧ r2.num_new = 0 ∧ r2.num_deleted = 0 :=
  idempotence_amended_C1 (fun l => l.map (fun _ => (0 : Nat))) (fun _ => []) id
    [{ raw := "r", compiled := "a", heading := "h", file := "f", corpus_id := 3 }]
    ("org") 0 [] []
    (fun l => by simp)
    (fun r hr => absurd hr (List.not_mem_nil r))
    { store := [
        { user := 0, embeddings := 0, raw := "r", compiled := "a",
          heading := "h", file_path := "f", file_type := "org",
          hashed_value := "a", corpus_id := 3 }],
      dates := [], num_new := 1, num_deleted := 0,
      embedCalls := [[("a" : String)]],
      created := [
        { user := 0, embeddings := 0, raw := "r", compiled := "a",
          heading := "h", file_path := "f", file_type := "org",
          hashed_value := "a", corpus_id := 3 }] }
    (by decide)
